import Mathlib

/-!
Verification development for the code-intelligence and context-budgeting
pipeline of the release-helper repository.

JavaScript strings are modelled as `List Char`; JavaScript numbers that
only ever hold non-negative integers are modelled as `Nat`.  The few
fractional computations (`len / 2.5`, `tok * 1.2`, the truncation ratio)
are modelled by exact rational arithmetic carried out over scaled
naturals: `Math.ceil (n / 2.5) = (2*n + 4) / 5`, `Math.ceil (n / 4) =
(n + 3) / 4`, and a sum `Σ tokᵢ * wᵢ` with weights in `{1, 1.2}` is the
scaled sum `Σ tokᵢ * {5, 6} / 5`.  IEEE-754 rounding of these
expressions agrees with the exact rational value for all realistic
sizes, so the model uses the exact values.
-/

namespace ReleaseHelper

open List

/-! ## String utilities (models of the JavaScript string primitives used) -/

/-- Model of `String.prototype.split(sep)` for a one-character separator:
`"a,b".split(",") = ["a","b"]`, `"".split(",") = [""]`. -/
def splitOnChar (c : Char) : List Char → List (List Char)
  | [] => [[]]
  | x :: xs =>
    match splitOnChar c xs with
    | [] => [[]]
    | h :: t => if x = c then [] :: h :: t else (x :: h) :: t

/-- Model of `String.prototype.includes(pat)`: `pat` occurs as a
contiguous substring. -/
def containsSeq (pat : List Char) : List Char → Bool
  | [] => pat.isEmpty
  | x :: xs => pat.isPrefixOf (x :: xs) || containsSeq pat xs

/-- Model of `String.prototype.trim` (whitespace stripped at both ends). -/
def jsTrim (s : List Char) : List Char :=
  ((s.dropWhile Char.isWhitespace).reverse.dropWhile Char.isWhitespace).reverse

/-! ## `src/utils/tokens.ts` -/

/-- The `codeIndicators` array of `estimateTokens`.  The two brace
characters are written by code point (123 = opening brace, 125 =
closing brace). -/
def codeIndicators : List (List Char) :=
  [[Char.ofNat 123], [Char.ofNat 125], ['('], [')'], [';'],
   "function".data, "class".data, "const".data, "let".data]

/-- The `isCode` test of `estimateTokens`: some indicator occurs in the
text. -/
def isCodeText (s : List Char) : Bool :=
  codeIndicators.any fun ind => containsSeq ind s

/-- `estimateTokens` from `src/utils/tokens.ts`:
`Math.ceil(text.length / charsPerToken)` with `charsPerToken = 2.5` for
code and `4` for prose. -/
def estimateTokens (s : List Char) : Nat :=
  if isCodeText s then (2 * s.length + 4) / 5 else (s.length + 3) / 4

/-- `estimateDiffTokens` from `src/utils/tokens.ts`: per line, changed
(`+`/`-`) lines are weighted 1.2, with one final `Math.ceil`.  The sum
is carried at scale 5 (weight 1.2 becomes factor 6, weight 1 becomes
factor 5). -/
def estimateDiffTokens (diff : List Char) : Nat :=
  let scaled := (splitOnChar '\n' diff).foldl
    (fun acc line =>
      acc + (if ['+'].isPrefixOf line || ['-'].isPrefixOf line
             then 6 * estimateTokens line else 5 * estimateTokens line)) 0
  (scaled + 4) / 5

/-- The literal appended by `truncateToTokens` when it cuts the text. -/
def truncationMarker : List Char := '\n' :: '\n' :: "... (truncated)".data

/-- `truncateToTokens` from `src/utils/tokens.ts`.  The JavaScript
`Math.floor(text.length * (maxTokens / estimatedTokens) * 0.9)` is the
exact `text.length * maxTokens * 9 / (estimatedTokens * 10)` in `Nat`
division. -/
def truncateToTokens (text : List Char) (maxTokens : Nat) : List Char :=
  let estimatedTokens := estimateTokens text
  if estimatedTokens ≤ maxTokens then text
  else
    let targetLength := text.length * maxTokens * 9 / (estimatedTokens * 10)
    text.take targetLength ++ truncationMarker

/-! ### Lemmas about the token estimator -/

theorem containsSeq_nil_pat (l : List Char) : containsSeq [] l = true := by
  cases l <;> simp [containsSeq, List.isPrefixOf]

theorem containsSeq_append (pat p q : List Char)
    (h : containsSeq pat p = true) : containsSeq pat (p ++ q) = true := by
  induction p with
  | nil =>
    simp only [containsSeq, List.isEmpty_iff] at h
    subst h
    exact containsSeq_nil_pat q
  | cons x xs ih =>
    simp only [List.cons_append, containsSeq, Bool.or_eq_true] at h ⊢
    rcases h with h | h
    · left
      rw [List.isPrefixOf_iff_prefix] at h ⊢
      exact h.trans (List.prefix_append _ _)
    · right; exact ih h

theorem isCodeText_mono {p t : List Char} (hp : p <+: t)
    (h : isCodeText p = true) : isCodeText t = true := by
  obtain ⟨q, rfl⟩ := hp
  simp only [isCodeText, List.any_eq_true] at h ⊢
  obtain ⟨ind, hmem, hc⟩ := h
  exact ⟨ind, hmem, containsSeq_append ind _ q hc⟩

theorem estimateTokens_nil : estimateTokens [] = 0 := by decide

/-- Helper: the length of the text bounds arising from the estimate. -/
theorem estimateTokens_scale (s : List Char) :
    (isCodeText s = true → 5 * estimateTokens s ≥ 2 * s.length) ∧
    (isCodeText s = false → 4 * estimateTokens s ≥ s.length) := by
  constructor <;> intro h <;> simp only [estimateTokens, h] <;> simp <;> omega

/-- Claim C8 helper: the arithmetic core of the truncation bound. -/
theorem truncate_prefix_estimate_le (text : List Char) (maxTokens : Nat)
    (hbig : ¬ estimateTokens text ≤ maxTokens) :
    estimateTokens (text.take
      (text.length * maxTokens * 9 / (estimateTokens text * 10))) ≤ maxTokens := by
  set L := text.length with hL
  set E := estimateTokens text with hE
  set M := maxTokens with hM
  set τ := L * M * 9 / (E * 10) with hτ
  have hEpos : 1 ≤ E := by omega
  have hLpos : 1 ≤ L := by
    by_contra hc
    have h0 : L = 0 := by omega
    have : text = [] := List.length_eq_zero.mp h0
    rw [this] at hE
    rw [estimateTokens_nil] at hE
    omega
  -- the floor division bound: (E * 10) * τ ≤ L * M * 9
  have hdiv : E * 10 * τ ≤ L * M * 9 := by
    rw [hτ, mul_comm (E * 10)]
    exact Nat.div_mul_le_self _ _
  have hklen : (text.take τ).length ≤ τ := by
    simp only [List.length_take]
    exact Nat.min_le_left τ L
  set k := (text.take τ).length with hk
  have htake : text.take τ <+: text := List.take_prefix τ text
  by_cases hcode : isCodeText text = true
  · -- the whole text is code: 5 * E ≥ 2 * L, so 4 * τ ≤ 9 * M
    have h5E : 5 * E ≥ 2 * L := (estimateTokens_scale text).1 hcode
    have h4L : 4 * L * τ ≤ E * 10 * τ := by
      have : 4 * L ≤ E * 10 := by omega
      exact Nat.mul_le_mul_right τ this
    have hLτ : L * (4 * τ) ≤ L * (9 * M) := by
      calc L * (4 * τ) = 4 * L * τ := by ring
        _ ≤ E * 10 * τ := h4L
        _ ≤ L * M * 9 := hdiv
        _ = L * (9 * M) := by ring
    have h4τ : 4 * τ ≤ 9 * M := Nat.le_of_mul_le_mul_left hLτ hLpos
    by_cases hpc : isCodeText (text.take τ) = true
    · simp only [estimateTokens, hpc, if_pos]
      omega
    · simp only [estimateTokens, hpc, Bool.false_eq_true, if_neg, if_false]
      omega
  · -- the whole text is prose; every prefix is then prose as well
    have hcode' : isCodeText text = false := by
      cases h : isCodeText text
      · rfl
      · exact absurd h hcode
    have h4E : 4 * E ≥ L := (estimateTokens_scale text).2 hcode'
    have hpc : isCodeText (text.take τ) = false := by
      cases h : isCodeText (text.take τ)
      · rfl
      · exact absurd (isCodeText_mono htake h) hcode
    have h10L : 10 * L * τ ≤ 4 * (E * 10 * τ) := by
      have : 10 * L ≤ 4 * (E * 10) := by omega
      calc 10 * L * τ ≤ 4 * (E * 10) * τ := Nat.mul_le_mul_right τ this
        _ = 4 * (E * 10 * τ) := by ring
    have hLτ : L * (10 * τ) ≤ L * (36 * M) := by
      calc L * (10 * τ) = 10 * L * τ := by ring
        _ ≤ 4 * (E * 10 * τ) := h10L
        _ ≤ 4 * (L * M * 9) := by omega
        _ = L * (36 * M) := by ring
    have h10τ : 10 * τ ≤ 36 * M := Nat.le_of_mul_le_mul_left hLτ hLpos
    simp only [estimateTokens, hpc, Bool.false_eq_true, if_neg, if_false]
    omega

/-- Claim C8 — confirmed.  For every text and every token limit,
`truncateToTokens` returns a prefix of the text — the whole text when it
already fits — whose own token estimate is at most `maxTokens` (the 10%
safety margin is part of the prefix-length computation), with the
explicit truncation marker appended exactly when truncation occurs. -/
theorem truncateToTokens_returns_bounded_prefix (text : List Char) (maxTokens : Nat) :
    ∃ k, truncateToTokens text maxTokens =
        text.take k ++
          (if estimateTokens text ≤ maxTokens then [] else truncationMarker) ∧
      estimateTokens (text.take k) ≤ maxTokens ∧
      (estimateTokens text ≤ maxTokens → truncateToTokens text maxTokens = text) := by
  by_cases h : estimateTokens text ≤ maxTokens
  · refine ⟨text.length, ?_, ?_, ?_⟩
    · simp [truncateToTokens, h]
    · simpa [List.take_length] using h
    · intro _; simp [truncateToTokens, h]
  · refine ⟨text.length * maxTokens * 9 / (estimateTokens text * 10), ?_, ?_, ?_⟩
    · simp [truncateToTokens, h]
    · exact truncate_prefix_estimate_le text maxTokens h
    · intro hc; exact absurd hc h

/-- Claim C8 witness: a concrete truncating run. -/
theorem truncateToTokens_returns_bounded_prefix_witness :
    ∃ k, truncateToTokens "aaaaaaaaaaaa".data 1 =
        "aaaaaaaaaaaa".data.take k ++
          (if estimateTokens "aaaaaaaaaaaa".data ≤ 1 then [] else truncationMarker) ∧
      estimateTokens ("aaaaaaaaaaaa".data.take k) ≤ 1 ∧
      (estimateTokens "aaaaaaaaaaaa".data ≤ 1 →
        truncateToTokens "aaaaaaaaaaaa".data 1 = "aaaaaaaaaaaa".data) :=
  truncateToTokens_returns_bounded_prefix "aaaaaaaaaaaa".data 1

/-- Claim C9 — counterexample.  `estimateTokens` is not monotonic in raw
length: a 7-character code text estimates higher than an 8-character
prose text, because the characters-per-token ratio differs. -/
theorem estimateTokens_not_length_monotone :
    ("(((((((".data).length ≤ ("aaaaaaaa".data).length ∧
      estimateTokens "aaaaaaaa".data < estimateTokens "(((((((".data := by decide

/-- Claim C9 — amended.  `estimateTokens` is monotonic non-decreasing in
length provided the shorter text is not classified as code while the
longer is classified as prose (in particular within each codeness
class). -/
theorem estimateTokens_length_monotone (s t : List Char)
    (hlen : s.length ≤ t.length)
    (hcode : isCodeText s = true → isCodeText t = true) :
    estimateTokens s ≤ estimateTokens t := by
  by_cases hs : isCodeText s = true
  · have ht := hcode hs
    simp only [estimateTokens, hs, ht, if_pos]
    omega
  · have hs' : isCodeText s = false := by
      cases h : isCodeText s
      · rfl
      · exact absurd h hs
    by_cases ht : isCodeText t = true
    · simp only [estimateTokens, hs', ht, Bool.false_eq_true, if_neg, if_false, if_pos]
      omega
    · have ht' : isCodeText t = false := by
        cases h : isCodeText t
        · rfl
        · exact absurd h ht
      simp only [estimateTokens, hs', ht', Bool.false_eq_true, if_neg, if_false]
      omega

/-- Claim C9 witness: the amended monotonicity at two concrete prose
texts. -/
theorem estimateTokens_length_monotone_witness :
    estimateTokens "ab".data ≤ estimateTokens "abcd".data :=
  estimateTokens_length_monotone "ab".data "abcd".data (by decide) (by decide)

/-! ## Data model of the chunk partitioner (`src/types/index.ts`) -/

/-- `FileChange` from `src/types/index.ts` (the fields used by the
chunker). -/
structure FileChange where
  filename : String
  status : String
  additions : Nat
  deletions : Nat
  changes : Nat
  patch : Option String
  blobUrl : String
  language : Option String
deriving DecidableEq, Repr

/-- `Chunk` from `src/types/index.ts`. -/
structure Chunk where
  id : String
  files : List FileChange
  totalChanges : Nat
  estimatedTokens : Nat
  reason : String
deriving DecidableEq, Repr

/-- `ChunkStrategy` from `src/types/index.ts`. -/
structure ChunkStrategy where
  name : String
  maxTokensPerChunk : Nat
  groupByModule : Bool
  groupByType : Bool
deriving DecidableEq, Repr

/-- `DEFAULT_STRATEGY` from the chunker module. -/
def DEFAULT_STRATEGY : ChunkStrategy :=
  { name := "balanced", maxTokensPerChunk := 6000,
    groupByModule := true, groupByType := true }

/-! ## Path helpers (models of node `path.dirname` / `path.extname`)

The models cover relative slash-separated paths, which is the shape of
every repository file name the chunker sees; exotic cases (absolute
paths, trailing slashes) are simplified. -/

/-- Model of `path.dirname`: everything before the last `/`, or `"."`
when there is no slash. -/
def jsDirname (p : String) : String :=
  let parts := splitOnChar '/' p.data
  if parts.length ≤ 1 then "." else ⟨List.intercalate ['/'] parts.dropLast⟩

/-- Model of `path.extname`: the suffix of the base name from its last
dot, empty for dotless names and for leading-dot names. -/
def jsExtname (p : String) : String :=
  let b := (splitOnChar '/' p.data).getLastD []
  let tw := b.reverse.takeWhile (· ≠ '.')
  if tw.length = b.length then ""
  else
    let i := b.length - 1 - tw.length
    if i = 0 then "" else ⟨b.drop i⟩

/-! ## The sort comparator of `sortFilesByRelevance`

`String.prototype.localeCompare` is modelled as code-point
lexicographic comparison. -/

/-- Lexicographic three-way comparison of character lists. -/
def lexCmp : List Char → List Char → Ordering
  | [], [] => .eq
  | [], _ :: _ => .lt
  | _ :: _, [] => .gt
  | x :: xs, y :: ys =>
    if x < y then .lt else if y < x then .gt else lexCmp xs ys

theorem lexCmp_self : ∀ a, lexCmp a a = .eq
  | [] => rfl
  | x :: xs => by simp [lexCmp, lt_irrefl, lexCmp_self xs]

theorem lexCmp_eq_iff : ∀ a b, lexCmp a b = .eq ↔ a = b
  | [], [] => by simp [lexCmp]
  | [], _ :: _ => by simp [lexCmp]
  | _ :: _, [] => by simp [lexCmp]
  | x :: xs, y :: ys => by
    by_cases h1 : x < y
    · simp only [lexCmp, h1, if_pos]
      constructor
      · intro h; cases h
      · intro h
        injection h with hx _
        exact absurd hx (ne_of_lt h1)
    · by_cases h2 : y < x
      · simp only [lexCmp, h1, h2, if_neg, if_pos, if_false]
        constructor
        · intro h; cases h
        · intro h
          injection h with hx _
          exact absurd hx.symm (ne_of_lt h2)
      · have hxy : x = y := le_antisymm (not_lt.mp h2) (not_lt.mp h1)
        subst hxy
        simp only [lexCmp, lt_irrefl, if_neg, if_false, lexCmp_eq_iff xs ys]
        simp

theorem lexCmp_swap : ∀ a b, lexCmp b a = (lexCmp a b).swap
  | [], [] => rfl
  | [], _ :: _ => rfl
  | _ :: _, [] => rfl
  | x :: xs, y :: ys => by
    by_cases h1 : x < y
    · simp [lexCmp, h1, not_lt_of_gt h1, Ordering.swap]
    · by_cases h2 : y < x
      · simp [lexCmp, h1, h2, Ordering.swap]
      · simp [lexCmp, h1, h2, lexCmp_swap xs ys]

theorem lexCmp_nil_ne_gt (c : List Char) : lexCmp [] c ≠ .gt := by
  cases c <;> simp [lexCmp]

theorem lexCmp_ne_gt_trans :
    ∀ a b c, lexCmp a b ≠ .gt → lexCmp b c ≠ .gt → lexCmp a c ≠ .gt
  | [], _, c, _, _ => lexCmp_nil_ne_gt c
  | _ :: _, [], _, h1, _ => by simp [lexCmp] at h1
  | _ :: _, _ :: _, [], _, h2 => by simp [lexCmp] at h2
  | x :: xs, y :: ys, z :: zs, h1, h2 => by
    by_cases hxy : x < y
    · by_cases hyz : y < z
      · simp [lexCmp, lt_trans hxy hyz]
      · by_cases hzy : z < y
        · simp only [lexCmp, hyz, hzy, if_neg, if_pos, if_false] at h2
          exact absurd h2 (by simp)
        · have : y = z := le_antisymm (not_lt.mp hzy) (not_lt.mp hyz)
          subst this
          simp [lexCmp, hxy]
    · by_cases hyx : y < x
      · simp only [lexCmp, hxy, hyx, if_neg, if_pos, if_false] at h1
        exact absurd h1 (by simp)
      · have hx : x = y := le_antisymm (not_lt.mp hyx) (not_lt.mp hxy)
        subst hx
        by_cases hyz : x < z
        · simp [lexCmp, hyz]
        · by_cases hzy : z < x
          · simp only [lexCmp, hyz, hzy, if_neg, if_pos, if_false] at h2
            exact absurd h2 (by simp)
          · have : x = z := le_antisymm (not_lt.mp hzy) (not_lt.mp hyz)
            subst this
            simp only [lexCmp, lt_irrefl, if_neg, if_false] at h1 h2 ⊢
            exact lexCmp_ne_gt_trans xs ys zs h1 h2

/-- The comparator of `sortFilesByRelevance`: by directory, then by
extension, then by file name. -/
def cmpFileChange (a b : FileChange) : Ordering :=
  if jsDirname a.filename ≠ jsDirname b.filename then
    lexCmp (jsDirname a.filename).data (jsDirname b.filename).data
  else if jsExtname a.filename ≠ jsExtname b.filename then
    lexCmp (jsExtname a.filename).data (jsExtname b.filename).data
  else lexCmp a.filename.data b.filename.data

/-- The non-strict order induced by the comparator (a comparator result
that is not `gt` keeps the pair in order). -/
def fileLe (a b : FileChange) : Prop := cmpFileChange a b ≠ .gt

instance : DecidableRel fileLe := fun a b => by
  unfold fileLe; infer_instance

theorem string_eq_iff_data (a b : String) : a = b ↔ a.data = b.data := by
  constructor
  · intro h; rw [h]
  · intro h; cases a; cases b; exact congrArg String.mk h

/-- The directory sort key. -/
def dirKey (f : FileChange) : List Char := (jsDirname f.filename).data

/-- The extension sort key. -/
def extKey (f : FileChange) : List Char := (jsExtname f.filename).data

/-- The file-name sort key. -/
def nameKey (f : FileChange) : List Char := f.filename.data

/-- The comparator rewritten as a chain of `Ordering.then`. -/
def cmp3 (a b : FileChange) : Ordering :=
  (lexCmp (dirKey a) (dirKey b)).then
    ((lexCmp (extKey a) (extKey b)).then (lexCmp (nameKey a) (nameKey b)))

theorem then_of_ne_eq {o₁ o₂ : Ordering} (h : o₁ ≠ .eq) : o₁.then o₂ = o₁ := by
  cases o₁
  · rfl
  · exact absurd rfl h
  · rfl

theorem then_swap (o₁ o₂ : Ordering) :
    (o₁.swap).then (o₂.swap) = (o₁.then o₂).swap := by
  cases o₁ <;> rfl

theorem then_ne_gt {o₁ o₂ : Ordering} :
    o₁.then o₂ ≠ .gt ↔ o₁ = .lt ∨ (o₁ = .eq ∧ o₂ ≠ .gt) := by
  cases o₁ <;> simp [Ordering.then]

theorem ordering_eq_then (o : Ordering) : Ordering.eq.then o = o := rfl

theorem cmpFileChange_eq_cmp3 (a b : FileChange) :
    cmpFileChange a b = cmp3 a b := by
  unfold cmpFileChange cmp3 dirKey extKey nameKey
  by_cases hd : jsDirname a.filename = jsDirname b.filename
  · have hde : lexCmp (jsDirname a.filename).data (jsDirname b.filename).data = .eq :=
      (lexCmp_eq_iff _ _).mpr ((string_eq_iff_data _ _).mp hd)
    rw [hde, ordering_eq_then, if_neg (not_not_intro hd)]
    by_cases he : jsExtname a.filename = jsExtname b.filename
    · have hee : lexCmp (jsExtname a.filename).data (jsExtname b.filename).data = .eq :=
        (lexCmp_eq_iff _ _).mpr ((string_eq_iff_data _ _).mp he)
      rw [hee, ordering_eq_then, if_neg (not_not_intro he)]
    · have hne : lexCmp (jsExtname a.filename).data (jsExtname b.filename).data ≠ .eq :=
        fun hc => he ((string_eq_iff_data _ _).mpr ((lexCmp_eq_iff _ _).mp hc))
      rw [then_of_ne_eq hne, if_pos he]
  · have hne : lexCmp (jsDirname a.filename).data (jsDirname b.filename).data ≠ .eq :=
      fun hc => hd ((string_eq_iff_data _ _).mpr ((lexCmp_eq_iff _ _).mp hc))
    rw [then_of_ne_eq hne, if_pos hd]

theorem lexCmp_lt_trans {a b c : List Char} (h1 : lexCmp a b = .lt)
    (h2 : lexCmp b c = .lt) : lexCmp a c = .lt := by
  have hng : lexCmp a c ≠ .gt :=
    lexCmp_ne_gt_trans a b c (by rw [h1]; simp) (by rw [h2]; simp)
  rcases ho : lexCmp a c with _ | _ | _
  · rfl
  · exfalso
    have hac : a = c := (lexCmp_eq_iff _ _).mp ho
    subst hac
    have := lexCmp_swap a b
    rw [h1] at this
    rw [this] at h2
    simp [Ordering.swap] at h2
  · exact absurd ho hng

theorem cmp3_ne_gt_trans {a b c : FileChange} (h1 : cmp3 a b ≠ .gt)
    (h2 : cmp3 b c ≠ .gt) : cmp3 a c ≠ .gt := by
  unfold cmp3 at h1 h2 ⊢
  rw [then_ne_gt] at h1 h2 ⊢
  rcases h1 with h1 | ⟨h1e, h1r⟩
  · rcases h2 with h2 | ⟨h2e, h2r⟩
    · exact Or.inl (lexCmp_lt_trans h1 h2)
    · have : dirKey b = dirKey c := (lexCmp_eq_iff _ _).mp h2e
      rw [← this]
      exact Or.inl h1
  · have hdab : dirKey a = dirKey b := (lexCmp_eq_iff _ _).mp h1e
    rcases h2 with h2 | ⟨h2e, h2r⟩
    · rw [hdab]
      exact Or.inl h2
    · have hdbc : dirKey b = dirKey c := (lexCmp_eq_iff _ _).mp h2e
      refine Or.inr ⟨by rw [hdab, hdbc, lexCmp_self], ?_⟩
      rw [then_ne_gt] at h1r h2r ⊢
      rcases h1r with h1r | ⟨h1re, h1rr⟩
      · rcases h2r with h2r | ⟨h2re, h2rr⟩
        · exact Or.inl (lexCmp_lt_trans h1r h2r)
        · have : extKey b = extKey c := (lexCmp_eq_iff _ _).mp h2re
          rw [← this]
          exact Or.inl h1r
      · have heab : extKey a = extKey b := (lexCmp_eq_iff _ _).mp h1re
        rcases h2r with h2r | ⟨h2re, h2rr⟩
        · rw [heab]
          exact Or.inl h2r
        · have hebc : extKey b = extKey c := (lexCmp_eq_iff _ _).mp h2re
          refine Or.inr ⟨by rw [heab, hebc, lexCmp_self], ?_⟩
          exact lexCmp_ne_gt_trans _ _ _ h1rr h2rr

theorem cmp3_swap (a b : FileChange) : cmp3 b a = (cmp3 a b).swap := by
  unfold cmp3
  rw [lexCmp_swap (dirKey a) (dirKey b), lexCmp_swap (extKey a) (extKey b),
    lexCmp_swap (nameKey a) (nameKey b), then_swap, then_swap]

instance : IsTotal FileChange fileLe := by
  constructor
  intro a b
  unfold fileLe
  rw [cmpFileChange_eq_cmp3, cmpFileChange_eq_cmp3, cmp3_swap a b]
  cases cmp3 a b <;> simp [Ordering.swap]

instance : IsTrans FileChange fileLe := by
  constructor
  intro a b c h1 h2
  unfold fileLe at h1 h2 ⊢
  rw [cmpFileChange_eq_cmp3] at h1 h2 ⊢
  exact cmp3_ne_gt_trans h1 h2

/-! ## The chunker (`src/chunking/chunker.ts`)

`Array.prototype.sort` is a stable in-place sort; with a total
transitive comparator its output list is the unique stable sorted
permutation, which `List.insertionSort` over the non-strict relation
also produces.  The in-place mutation is modelled explicitly by
`createChunksMut` below, which returns the caller-visible final
contents of the argument array alongside the result. -/

/-- `sortFilesByRelevance`: stable sort by (directory, extension,
filename). -/
def sortFilesByRelevance (files : List FileChange) : List FileChange :=
  List.insertionSort fileLe files

/-- `getModuleName` from the chunker. -/
def getModuleName (filepath : String) : String :=
  let parts := splitOnChar '/' filepath.data
  if parts.headD [] = "src".data ∧ 2 < parts.length then
    ⟨"src/".data ++ parts.getD 1 []⟩
  else if 1 < parts.length then ⟨parts.headD []⟩
  else "root"

/-- `sanitizeModuleName`: every character outside `[a-zA-Z0-9-]`
becomes `-`; then lower-case. -/
def sanitizeModuleName (name : String) : String :=
  ⟨(name.data.map fun c =>
      if ('a' ≤ c ∧ c ≤ 'z') ∨ ('A' ≤ c ∧ c ≤ 'Z') ∨ ('0' ≤ c ∧ c ≤ '9') ∨ c = '-'
      then c else '-').map Char.toLower⟩

/-- `estimateFileTokens`: filename estimate plus 20 overhead, plus the
diff estimate of the patch, or `changes * 3` when there is no patch. -/
def estimateFileTokens (file : FileChange) : Nat :=
  estimateTokens file.filename.data + 20 +
    match file.patch with
    | some p => estimateDiffTokens p.data
    | none => file.changes * 3

/-- `estimateModuleTokens`: sum of the per-file estimates. -/
def estimateModuleTokens (files : List FileChange) : Nat :=
  (files.map estimateFileTokens).sum

/-- The `totalChanges` accumulation used for every chunk. -/
def sumChanges (files : List FileChange) : Nat :=
  (files.map (·.changes)).sum

/-- The id of a size-based chunk: `chunk-<n+1>` with a sanitized module
suffix when a module prefix is present. -/
def sizeChunkId (numPrev : Nat) (pfx : String) : String :=
  "chunk-" ++ toString (numPrev + 1) ++
    (if pfx ≠ "" then "-" ++ sanitizeModuleName pfx else "")

/-- The `reason` of a size-based chunk. -/
def sizeReason (pfx : String) : String :=
  if pfx ≠ "" then "Part of " ++ pfx else "Size-based grouping"

/-- The loop of `chunkBySize`, with the mutable `chunks`,
`currentChunk` and `currentTokens` variables made explicit. -/
def chunkBySizeGo (strategy : ChunkStrategy) (pfx : String) :
    List Chunk → List FileChange → Nat → List FileChange → List Chunk
  | chunks, currentChunk, currentTokens, [] =>
    if 0 < currentChunk.length then
      chunks ++ [⟨sizeChunkId chunks.length pfx, currentChunk,
        sumChanges currentChunk, currentTokens, sizeReason pfx⟩]
    else chunks
  | chunks, currentChunk, currentTokens, file :: rest =>
    let fileTokens := estimateFileTokens file
    if strategy.maxTokensPerChunk < currentTokens + fileTokens ∧ 0 < currentChunk.length then
      chunkBySizeGo strategy pfx
        (chunks ++ [⟨sizeChunkId chunks.length pfx, currentChunk,
          sumChanges currentChunk, currentTokens, sizeReason pfx⟩])
        [file] fileTokens rest
    else
      chunkBySizeGo strategy pfx chunks (currentChunk ++ [file])
        (currentTokens + fileTokens) rest

/-- `chunkBySize` from the chunker. -/
def chunkBySize (files : List FileChange) (strategy : ChunkStrategy)
    (pfx : String) : List Chunk :=
  chunkBySizeGo strategy pfx [] [] 0 files

/-- One `Map` update of `groupFilesByModule`: push onto the existing
bucket of the key, else append a fresh bucket (insertion order). -/
def addToBucket : List (String × List FileChange) → String → FileChange →
    List (String × List FileChange)
  | [], key, f => [(key, [f])]
  | (k, fs) :: rest, key, f =>
    if k = key then (k, fs ++ [f]) :: rest
    else (k, fs) :: addToBucket rest key f

/-- The per-file step of `groupFilesByModule`. -/
def groupStep (acc : List (String × List FileChange)) (f : FileChange) :
    List (String × List FileChange) :=
  addToBucket acc (getModuleName f.filename) f

/-- `groupFilesByModule`: a `Map<string, FileChange[]>` in insertion
order, modelled as an association list. -/
def groupFilesByModule (files : List FileChange) : List (String × List FileChange) :=
  files.foldl groupStep []

/-- The per-bucket step of `chunkByModule`: a module whose total
estimate fits the budget becomes one chunk, otherwise the bucket alone
is re-split by `chunkBySize`. -/
def moduleStep (strategy : ChunkStrategy) (chunks : List Chunk)
    (bucket : String × List FileChange) : List Chunk :=
  let moduleTokens := estimateModuleTokens bucket.2
  if moduleTokens ≤ strategy.maxTokensPerChunk then
    chunks ++ [⟨"chunk-" ++ toString (chunks.length + 1) ++ "-" ++
        sanitizeModuleName bucket.1, bucket.2, sumChanges bucket.2,
        moduleTokens, "Module: " ++ bucket.1⟩]
  else chunks ++ chunkBySize bucket.2 strategy bucket.1

/-- `chunkByModule` from the chunker. -/
def chunkByModule (files : List FileChange) (strategy : ChunkStrategy) : List Chunk :=
  (groupFilesByModule files).foldl (moduleStep strategy) []

/-- `createChunks` from the chunker. -/
def createChunks (files : List FileChange)
    (strategy : ChunkStrategy := DEFAULT_STRATEGY) : List Chunk :=
  let sortedFiles := sortFilesByRelevance files
  if strategy.groupByModule then chunkByModule sortedFiles strategy
  else chunkBySize sortedFiles strategy ""

/-- `createChunks` together with the caller-visible final contents of
the `files` array: `sortFilesByRelevance` invokes
`Array.prototype.sort` on the argument array itself, so after the call
the caller's array holds the sorted order. -/
def createChunksMut (files : List FileChange)
    (strategy : ChunkStrategy := DEFAULT_STRATEGY) : List Chunk × List FileChange :=
  (createChunks files strategy, sortFilesByRelevance files)

/-! ### Partition lemmas for the chunker -/

/-- The concatenation of the file lists of a chunk list. -/
def chunksFiles (cs : List Chunk) : List FileChange := (cs.map Chunk.files).flatten

/-- The concatenation of the buckets of a module grouping. -/
def bucketsJoin (bs : List (String × List FileChange)) : List FileChange :=
  (bs.map Prod.snd).flatten

theorem chunksFiles_append (a b : List Chunk) :
    chunksFiles (a ++ b) = chunksFiles a ++ chunksFiles b := by
  simp [chunksFiles]

theorem chunkBySizeGo_join (strategy : ChunkStrategy) (pfx : String) :
    ∀ (rest : List FileChange) (chunks : List Chunk) (cur : List FileChange) (tok : Nat),
      chunksFiles (chunkBySizeGo strategy pfx chunks cur tok rest) =
        chunksFiles chunks ++ cur ++ rest
  | [], chunks, cur, tok => by
    by_cases h : 0 < cur.length
    · simp [chunkBySizeGo, h, chunksFiles_append, chunksFiles]
    · have : cur = [] := List.length_eq_zero.mp (by omega)
      subst this
      simp [chunkBySizeGo, chunksFiles]
  | file :: rest, chunks, cur, tok => by
    by_cases h : strategy.maxTokensPerChunk < tok + estimateFileTokens file ∧ 0 < cur.length
    · simp only [chunkBySizeGo]
      rw [if_pos h, chunkBySizeGo_join strategy pfx rest, chunksFiles_append]
      simp [chunksFiles]
    · simp only [chunkBySizeGo]
      rw [if_neg h, chunkBySizeGo_join strategy pfx rest]
      simp

theorem chunkBySize_join (files : List FileChange) (strategy : ChunkStrategy)
    (pfx : String) : chunksFiles (chunkBySize files strategy pfx) = files := by
  unfold chunkBySize
  rw [chunkBySizeGo_join]
  simp [chunksFiles]

theorem chunkBySizeGo_mem (strategy : ChunkStrategy) (pfx : String) :
    ∀ (rest : List FileChange) (chunks : List Chunk) (cur : List FileChange) (tok : Nat)
      (c : Chunk), c ∈ chunkBySizeGo strategy pfx chunks cur tok rest →
      c ∈ chunks ∨ c.files <+ cur ++ rest
  | [], chunks, cur, tok, c => by
    intro hmem
    by_cases h : 0 < cur.length
    · simp only [chunkBySizeGo] at hmem
      rw [if_pos h] at hmem
      rcases List.mem_append.mp hmem with h1 | h1
      · exact Or.inl h1
      · right
        simp only [List.mem_singleton] at h1
        subst h1
        simp
    · simp only [chunkBySizeGo] at hmem
      rw [if_neg h] at hmem
      exact Or.inl hmem
  | file :: rest, chunks, cur, tok, c => by
    intro hmem
    by_cases h : strategy.maxTokensPerChunk < tok + estimateFileTokens file ∧ 0 < cur.length
    · simp only [chunkBySizeGo] at hmem
      rw [if_pos h] at hmem
      rcases chunkBySizeGo_mem strategy pfx rest _ _ _ c hmem with h1 | h1
      · rcases List.mem_append.mp h1 with h2 | h2
        · exact Or.inl h2
        · right
          simp only [List.mem_singleton] at h2
          subst h2
          simp only []
          exact (List.sublist_append_left cur (file :: rest))
      · right
        calc c.files <+ [file] ++ rest := h1
          _ <+ cur ++ [file] ++ rest :=
              List.Sublist.append_right (List.sublist_append_right cur [file]) rest
          _ = cur ++ (file :: rest) := by simp
    · simp only [chunkBySizeGo] at hmem
      rw [if_neg h] at hmem
      rcases chunkBySizeGo_mem strategy pfx rest _ _ _ c hmem with h1 | h1
      · exact Or.inl h1
      · right
        simpa using h1

theorem chunkBySize_mem {files : List FileChange} {strategy : ChunkStrategy}
    {pfx : String} {c : Chunk} (h : c ∈ chunkBySize files strategy pfx) :
    c.files <+ files := by
  rcases chunkBySizeGo_mem strategy pfx files [] [] 0 c h with h1 | h1
  · simp at h1
  · simpa using h1

theorem estimateModuleTokens_append (a b : List FileChange) :
    estimateModuleTokens (a ++ b) = estimateModuleTokens a + estimateModuleTokens b := by
  simp [estimateModuleTokens]

theorem chunkBySizeGo_oversized (strategy : ChunkStrategy) (pfx : String) :
    ∀ (rest : List FileChange) (chunks : List Chunk) (cur : List FileChange) (tok : Nat),
      tok = estimateModuleTokens cur →
      (∀ g ∈ cur, strategy.maxTokensPerChunk < estimateFileTokens g → cur = [g]) →
      (∀ c ∈ chunks, ∀ g ∈ c.files,
        strategy.maxTokensPerChunk < estimateFileTokens g → c.files = [g]) →
      ∀ c ∈ chunkBySizeGo strategy pfx chunks cur tok rest,
      ∀ g ∈ c.files, strategy.maxTokensPerChunk < estimateFileTokens g → c.files = [g]
  | [], chunks, cur, tok, htok, hcur, hchunks, c, hmem => by
    by_cases h : 0 < cur.length
    · simp only [chunkBySizeGo] at hmem
      rw [if_pos h] at hmem
      rcases List.mem_append.mp hmem with h1 | h1
      · exact hchunks c h1
      · simp only [List.mem_singleton] at h1
        subst h1
        intro g hg hbig
        exact hcur g hg hbig
    · simp only [chunkBySizeGo] at hmem
      rw [if_neg h] at hmem
      exact hchunks c hmem
  | file :: rest, chunks, cur, tok, htok, hcur, hchunks, c, hmem => by
    by_cases h : strategy.maxTokensPerChunk < tok + estimateFileTokens file ∧ 0 < cur.length
    · simp only [chunkBySizeGo] at hmem
      rw [if_pos h] at hmem
      refine chunkBySizeGo_oversized strategy pfx rest _ _ _ ?_ ?_ ?_ c hmem
      · simp [estimateModuleTokens]
      · intro g hg _
        simp only [List.mem_singleton] at hg
        subst hg
        rfl
      · intro c' hc' g hg hbig
        rcases List.mem_append.mp hc' with h1 | h1
        · exact hchunks c' h1 g hg hbig
        · simp only [List.mem_singleton] at h1
          subst h1
          exact hcur g hg hbig
    · simp only [chunkBySizeGo] at hmem
      rw [if_neg h] at hmem
      refine chunkBySizeGo_oversized strategy pfx rest _ _ _ ?_ ?_ hchunks c hmem
      · rw [htok, estimateModuleTokens_append]
        simp [estimateModuleTokens]
      · intro g hg hbig
        rcases List.mem_append.mp hg with h1 | h1
        · -- an oversized file already in the running chunk forces the
          -- close condition, contradicting the current branch
          exfalso
          have hsing := hcur g h1 hbig
          have : tok = estimateFileTokens g := by
            rw [htok, hsing]
            simp [estimateModuleTokens]
          apply h
          constructor
          · omega
          · rw [hsing]; simp
        · simp only [List.mem_singleton] at h1
          subst h1
          have hnil : cur = [] := by
            by_contra hne
            apply h
            constructor
            · omega
            · have := List.length_pos.mpr hne
              omega
          rw [hnil]
          simp
  termination_by rest => rest.length

theorem chunkBySize_oversized {files : List FileChange} {strategy : ChunkStrategy}
    {pfx : String} {c : Chunk} (hc : c ∈ chunkBySize files strategy pfx)
    {g : FileChange} (hg : g ∈ c.files)
    (hbig : strategy.maxTokensPerChunk < estimateFileTokens g) : c.files = [g] := by
  refine chunkBySizeGo_oversized strategy pfx files [] [] 0 (by simp [estimateModuleTokens])
    (by simp) (by simp) c hc g hg hbig

/-! ### Bucket lemmas for module grouping -/

theorem addToBucket_join (acc : List (String × List FileChange)) (key : String)
    (f : FileChange) : bucketsJoin (addToBucket acc key f) ~ bucketsJoin acc ++ [f] := by
  induction acc with
  | nil => simp [addToBucket, bucketsJoin]
  | cons b rest ih =>
    obtain ⟨k, fs⟩ := b
    by_cases hk : k = key
    · subst hk
      simp only [addToBucket, if_pos rfl]
      simp only [bucketsJoin, List.map_cons, List.flatten_cons]
      calc (fs ++ [f]) ++ (rest.map Prod.snd).flatten
          = fs ++ ([f] ++ (rest.map Prod.snd).flatten) := by simp
        _ ~ fs ++ ((rest.map Prod.snd).flatten ++ [f]) :=
            List.Perm.append_left fs (List.perm_append_comm)
        _ = (fs ++ (rest.map Prod.snd).flatten) ++ [f] := by simp
    · simp only [addToBucket]
      rw [if_neg hk]
      simp only [bucketsJoin, List.map_cons, List.flatten_cons]
      calc fs ++ bucketsJoin (addToBucket rest key f)
          ~ fs ++ (bucketsJoin rest ++ [f]) := List.Perm.append_left fs ih
        _ = (fs ++ bucketsJoin rest) ++ [f] := by simp

theorem groupFold_join :
    ∀ (files : List FileChange) (acc : List (String × List FileChange)),
      bucketsJoin (files.foldl groupStep acc) ~ bucketsJoin acc ++ files
  | [], acc => by simp
  | f :: fs, acc => by
    simp only [List.foldl_cons]
    calc bucketsJoin ((fs.foldl groupStep) (groupStep acc f))
        ~ bucketsJoin (groupStep acc f) ++ fs := groupFold_join fs _
      _ ~ (bucketsJoin acc ++ [f]) ++ fs :=
          List.Perm.append_right fs (addToBucket_join acc _ f)
      _ = bucketsJoin acc ++ (f :: fs) := by simp

theorem groupFilesByModule_join (files : List FileChange) :
    bucketsJoin (groupFilesByModule files) ~ files := by
  simpa using groupFold_join files []

theorem addToBucket_sublist {acc : List (String × List FileChange)} {key : String}
    {f : FileChange} {done : List FileChange} (h : ∀ b ∈ acc, b.2 <+ done) :
    ∀ b ∈ addToBucket acc key f, b.2 <+ done ++ [f] := by
  induction acc with
  | nil =>
    intro b hb
    simp only [addToBucket, List.mem_singleton] at hb
    subst hb
    simp
  | cons hd rest ih =>
    obtain ⟨k, fs⟩ := hd
    intro b hb
    by_cases hk : k = key
    · simp only [addToBucket] at hb
      rw [if_pos hk] at hb
      rcases List.mem_cons.mp hb with h1 | h1
      · subst h1
        exact List.Sublist.append_right (h (k, fs) (by simp)) [f]
      · exact ((h _ (List.mem_cons_of_mem _ h1)).trans
          (List.sublist_append_left done [f]))
    · simp only [addToBucket] at hb
      rw [if_neg hk] at hb
      rcases List.mem_cons.mp hb with h1 | h1
      · subst h1
        exact (h (k, fs) (by simp)).trans (List.sublist_append_left done [f])
      · exact ih (fun b' hb' => h b' (List.mem_cons_of_mem _ hb')) b h1

theorem groupFold_sublist :
    ∀ (files : List FileChange) (acc : List (String × List FileChange))
      (done : List FileChange), (∀ b ∈ acc, b.2 <+ done) →
      ∀ b ∈ files.foldl groupStep acc, b.2 <+ done ++ files
  | [], acc, done, h => by simpa using h
  | f :: fs, acc, done, h => by
    intro b hb
    simp only [List.foldl_cons] at hb
    have step : ∀ b ∈ groupStep acc f, b.2 <+ done ++ [f] :=
      addToBucket_sublist h
    have := groupFold_sublist fs (groupStep acc f) (done ++ [f]) step b hb
    simpa using this

theorem groupFilesByModule_sublist {files : List FileChange}
    {b : String × List FileChange} (hb : b ∈ groupFilesByModule files) :
    b.2 <+ files := by
  have := groupFold_sublist files [] [] (by simp) b hb
  simpa using this

/-! ### Module-fold lemmas -/

theorem moduleFold_join (strategy : ChunkStrategy) :
    ∀ (buckets : List (String × List FileChange)) (acc : List Chunk),
      chunksFiles (buckets.foldl (moduleStep strategy) acc) =
        chunksFiles acc ++ bucketsJoin buckets
  | [], acc => by simp [bucketsJoin]
  | b :: bs, acc => by
    simp only [List.foldl_cons]
    rw [moduleFold_join strategy bs]
    unfold moduleStep
    by_cases h : estimateModuleTokens b.2 ≤ strategy.maxTokensPerChunk
    · rw [if_pos h, chunksFiles_append]
      simp [chunksFiles, bucketsJoin]
    · rw [if_neg h, chunksFiles_append, chunkBySize_join]
      simp [bucketsJoin]

theorem moduleFold_mem (strategy : ChunkStrategy) :
    ∀ (buckets : List (String × List FileChange)) (acc : List Chunk) (c : Chunk),
      c ∈ buckets.foldl (moduleStep strategy) acc →
      c ∈ acc ∨ ∃ b ∈ buckets,
        (c.files = b.2 ∧ estimateModuleTokens b.2 ≤ strategy.maxTokensPerChunk) ∨
          c ∈ chunkBySize b.2 strategy b.1
  | [], acc, c => by
    intro h
    exact Or.inl (by simpa using h)
  | b :: bs, acc, c => by
    intro h
    simp only [List.foldl_cons] at h
    rcases moduleFold_mem strategy bs _ c h with h1 | ⟨b', hb', h1⟩
    · unfold moduleStep at h1
      by_cases hfit : estimateModuleTokens b.2 ≤ strategy.maxTokensPerChunk
      · rw [if_pos hfit] at h1
        rcases List.mem_append.mp h1 with h2 | h2
        · exact Or.inl h2
        · simp only [List.mem_singleton] at h2
          subst h2
          exact Or.inr ⟨b, by simp, Or.inl ⟨rfl, hfit⟩⟩
      · rw [if_neg hfit] at h1
        rcases List.mem_append.mp h1 with h2 | h2
        · exact Or.inl h2
        · exact Or.inr ⟨b, by simp, Or.inr h2⟩
    · exact Or.inr ⟨b', List.mem_cons_of_mem _ hb', h1⟩

/-! ### Claim theorems for the chunker -/

/-- Claim C1 — confirmed.  For every input list, every positive token
budget, and either setting of `groupByModule`, `createChunks` is a
partition of its input: the concatenation of the chunks' file lists is
a permutation of the input (exactly the input files, none duplicated,
none omitted), and each chunk's file list is a sublist of the sorted
input, i.e. the files inside a chunk appear in the (directory,
extension, filename) sorted order. -/
theorem createChunks_partition (files : List FileChange) (strategy : ChunkStrategy)
    (_hpos : 0 < strategy.maxTokensPerChunk) :
    chunksFiles (createChunks files strategy) ~ files ∧
      ∀ c ∈ createChunks files strategy, c.files <+ sortFilesByRelevance files := by
  have hperm : sortFilesByRelevance files ~ files :=
    List.perm_insertionSort fileLe files
  unfold createChunks
  by_cases hgm : strategy.groupByModule
  · simp only [hgm, if_pos]
    constructor
    · unfold chunkByModule
      rw [moduleFold_join]
      calc chunksFiles [] ++ bucketsJoin (groupFilesByModule (sortFilesByRelevance files))
          = bucketsJoin (groupFilesByModule (sortFilesByRelevance files)) := by
            simp [chunksFiles]
        _ ~ sortFilesByRelevance files := groupFilesByModule_join _
        _ ~ files := hperm
    · intro c hc
      rcases moduleFold_mem strategy _ [] c hc with h1 | ⟨b, hb, h1⟩
      · simp at h1
      · have hsub : b.2 <+ sortFilesByRelevance files := groupFilesByModule_sublist hb
        rcases h1 with ⟨heq, _⟩ | h1
        · rw [heq]; exact hsub
        · exact (chunkBySize_mem h1).trans hsub
  · simp only [hgm, if_neg, Bool.false_eq_true, if_false]
    constructor
    · rw [chunkBySize_join]
      exact hperm
    · intro c hc
      exact chunkBySize_mem hc

/-- Claim C1 witness: the partition property at a concrete two-file
input under the default strategy. -/
theorem createChunks_partition_witness :
    0 < DEFAULT_STRATEGY.maxTokensPerChunk ∧
      (chunksFiles (createChunks [⟨"b/y.ts", "modified", 0, 0, 0, none, "", none⟩,
          ⟨"a/x.ts", "modified", 1, 1, 2, none, "", none⟩] DEFAULT_STRATEGY) ~
        [⟨"b/y.ts", "modified", 0, 0, 0, none, "", none⟩,
          ⟨"a/x.ts", "modified", 1, 1, 2, none, "", none⟩] ∧
      ∀ c ∈ createChunks [⟨"b/y.ts", "modified", 0, 0, 0, none, "", none⟩,
          ⟨"a/x.ts", "modified", 1, 1, 2, none, "", none⟩] DEFAULT_STRATEGY,
        c.files <+ sortFilesByRelevance
          [⟨"b/y.ts", "modified", 0, 0, 0, none, "", none⟩,
            ⟨"a/x.ts", "modified", 1, 1, 2, none, "", none⟩]) :=
  ⟨by decide, createChunks_partition _ DEFAULT_STRATEGY (by decide)⟩

/-- Claim C7 — confirmed (general form).  Any file whose own estimate
exceeds the budget ends up alone in any chunk that contains it: it is
never merged with other files, never split, and by the partition law it
is never dropped. -/
theorem createChunks_oversized_isolated (files : List FileChange)
    (strategy : ChunkStrategy) (f : FileChange)
    (hbig : strategy.maxTokensPerChunk < estimateFileTokens f) :
    ∀ c ∈ createChunks files strategy, f ∈ c.files → c.files = [f] := by
  intro c hc hf
  unfold createChunks at hc
  by_cases hgm : strategy.groupByModule
  · simp only [hgm, if_pos] at hc
    rcases moduleFold_mem strategy _ [] c hc with h1 | ⟨b, _, h1⟩
    · simp at h1
    · rcases h1 with ⟨heq, hfit⟩ | h1
      · exfalso
        rw [heq] at hf
        have : estimateFileTokens f ≤ estimateModuleTokens b.2 := by
          refine List.single_le_sum (fun x _ => Nat.zero_le x) _ ?_
          exact List.mem_map_of_mem estimateFileTokens hf
        omega
      · exact chunkBySize_oversized h1 hf hbig
  · simp only [hgm, if_neg, Bool.false_eq_true, if_false] at hc
    exact chunkBySize_oversized hc hf hbig

/-- The oversized demonstration file of the C7 witness: its estimate is
21 tokens (1 for the two-character code-like name plus the flat 20
overhead). -/
def oversizedDemoFile : FileChange := ⟨"a(", "added", 0, 0, 0, none, "", none⟩

/-- The strategy of the C7 witness, with a 5-token budget. -/
def littleStrategy : ChunkStrategy := ⟨"little", 5, false, false⟩

/-- The single chunk produced for the oversized demonstration file. -/
def oversizedDemoChunk : Chunk :=
  ⟨"chunk-1", [oversizedDemoFile], 0, 21, "Size-based grouping"⟩

/-- Claim C7 witness: one concrete oversized file under a 5-token
budget lands alone in its own chunk. -/
theorem createChunks_oversized_isolated_witness :
    littleStrategy.maxTokensPerChunk < estimateFileTokens oversizedDemoFile ∧
      oversizedDemoChunk.files = [oversizedDemoFile] :=
  ⟨by decide,
    createChunks_oversized_isolated [oversizedDemoFile] littleStrategy
      oversizedDemoFile (by decide) oversizedDemoChunk (by decide) (by decide)⟩

/-- Claim C10 — confirmed.  `createChunks` leaves the caller's array
reordered: `sortFilesByRelevance` calls `Array.prototype.sort` on the
argument array itself, so after every call the array the caller passed
in holds the (directory, extension, filename) sorted permutation of its
former contents; on a concrete unsorted input the final contents differ
from the original ones. -/
theorem createChunks_mutates_input (files : List FileChange) (strategy : ChunkStrategy) :
    ((createChunksMut files strategy).2 ~ files ∧
        List.Sorted fileLe (createChunksMut files strategy).2) ∧
      (createChunksMut [⟨"b/y.ts", "modified", 0, 0, 0, none, "", none⟩,
          ⟨"a/x.ts", "modified", 0, 0, 0, none, "", none⟩] DEFAULT_STRATEGY).2 ≠
        [⟨"b/y.ts", "modified", 0, 0, 0, none, "", none⟩,
          ⟨"a/x.ts", "modified", 0, 0, 0, none, "", none⟩] := by
  refine ⟨⟨List.perm_insertionSort fileLe files, ?_⟩, by decide⟩
  exact List.sorted_insertionSort fileLe files

/-! ## The call graph (`src/analysis/call-graph.ts`) -/

/-- `CallGraphEdge` from `src/types/index.ts`.  The `from` and `to`
fields are renamed `fromKey` and `toKey` because both are reserved
words in Lean. -/
structure CallGraphEdge where
  fromKey : String
  toKey : String
  file : String
  line : Nat
deriving DecidableEq, Repr

/-- `CallGraphNode` from `src/types/index.ts`. -/
structure CallGraphNode where
  name : String
  file : String
  line : Nat
  callers : List CallGraphEdge
  callees : List CallGraphEdge
deriving DecidableEq, Repr

/-- A JavaScript `Map` in insertion order, modelled as an association
list: lookup finds the first matching key. -/
def lookupA {β : Type} (m : List (String × β)) (k : String) : Option β :=
  (m.find? fun p => p.1 = k).map (·.2)

/-- The string key `file:functionName` of a graph node. -/
def nodeKey (file funcName : String) : String := file ++ ":" ++ funcName

/-- All callee-edge targets appearing anywhere in the graph. -/
def graphTargets (graph : List (String × CallGraphNode)) : List String :=
  (graph.map fun p => p.2.callees.map (·.toKey)).flatten

/-- The total number of callee edges in the graph. -/
def totalCallees (graph : List (String × CallGraphNode)) : Nat :=
  (graph.map fun p => p.2.callees.length).sum

/-- The finite set of keys the BFS of `findDependencies` can ever
enqueue: the start key and every callee target. -/
def bfsUniverse (graph : List (String × CallGraphNode)) (startKey : String) :
    Finset String :=
  insert startKey (graphTargets graph).toFinset

/-- An upper bound on the number of loop iterations of the BFS (each
iteration pops one entry; every visit enqueues at most `totalCallees`
entries and visits are bounded by the universe size). -/
def bfsFuel (graph : List (String × CallGraphNode)) (startKey : String) : Nat :=
  2 + (bfsUniverse graph startKey).card * (totalCallees graph + 1)

/-- The `while (queue.length > 0)` loop of `findDependencies`, with the
`visited` set modelled as a duplicate-free list in insertion order and
an explicit fuel argument (the JavaScript loop has none; `bfsFuel` is
proved sufficient below, so the `none` case never occurs). -/
def bfsLoop (graph : List (String × CallGraphNode)) (maxDepth : Nat) :
    Nat → List String → List (String × Nat) → Option (List String)
  | 0, _, _ => none
  | _ + 1, visited, [] => some visited
  | fuel + 1, visited, (key, depth) :: rest =>
    if key ∈ visited ∨ maxDepth ≤ depth then
      bfsLoop graph maxDepth fuel visited rest
    else
      let visited' := visited ++ [key]
      match lookupA graph key with
      | none => bfsLoop graph maxDepth fuel visited' rest
      | some node =>
        bfsLoop graph maxDepth fuel visited'
          (rest ++ (node.callees.filter fun e => e.toKey ∉ visited').map
            fun e => (e.toKey, depth + 1))

/-- Instrumented variant of `bfsLoop` that records the depth at which
each key was visited; `bfsLoop` is its projection (proved below). -/
def bfsLoopD (graph : List (String × CallGraphNode)) (maxDepth : Nat) :
    Nat → List (String × Nat) → List (String × Nat) → Option (List (String × Nat))
  | 0, _, _ => none
  | _ + 1, visitedD, [] => some visitedD
  | fuel + 1, visitedD, (key, depth) :: rest =>
    if key ∈ visitedD.map Prod.fst ∨ maxDepth ≤ depth then
      bfsLoopD graph maxDepth fuel visitedD rest
    else
      let visitedD' := visitedD ++ [(key, depth)]
      match lookupA graph key with
      | none => bfsLoopD graph maxDepth fuel visitedD' rest
      | some node =>
        bfsLoopD graph maxDepth fuel visitedD'
          (rest ++ (node.callees.filter fun e => e.toKey ∉ visitedD'.map Prod.fst).map
            fun e => (e.toKey, depth + 1))

/-- `findDependencies` from `src/analysis/call-graph.ts`: BFS along
callee edges with a visited set and a depth cutoff, finally removing
the start key from the result. -/
def findDependencies (funcName file : String)
    (graph : List (String × CallGraphNode)) (maxDepth : Nat := 3) : List String :=
  let startKey := nodeKey file funcName
  match bfsLoop graph maxDepth (bfsFuel graph startKey) [] [(startKey, 0)] with
  | some visited => visited.erase startKey
  | none => []

/-- One callee step of the graph: the source key resolves to a node and
one of its callee edges points at the target key. -/
def calleeStep (graph : List (String × CallGraphNode)) (a b : String) : Prop :=
  ∃ node, lookupA graph a = some node ∧ ∃ e ∈ node.callees, e.toKey = b

/-- Paths of exactly `n` callee steps. -/
def reachN (graph : List (String × CallGraphNode)) : Nat → String → String → Prop
  | 0, a, b => a = b
  | n + 1, a, b => ∃ c, calleeStep graph a c ∧ reachN graph n c b

theorem reachN_snoc (graph : List (String × CallGraphNode)) :
    ∀ (n : Nat) (a b c : String), reachN graph n a b → calleeStep graph b c →
      reachN graph (n + 1) a c
  | 0, a, b, c, hab, hbc => by
    simp only [reachN] at hab
    subst hab
    exact ⟨c, hbc, rfl⟩
  | n + 1, a, b, c, hab, hbc => by
    obtain ⟨m, ham, hmb⟩ := hab
    exact ⟨m, ham, reachN_snoc graph n m b c hmb hbc⟩

theorem reachN_snoc_decomp (graph : List (String × CallGraphNode)) :
    ∀ (n : Nat) (a c : String), reachN graph (n + 1) a c →
      ∃ b, reachN graph n a b ∧ calleeStep graph b c
  | 0, a, c, h => by
    obtain ⟨m, ham, hmc⟩ := h
    simp only [reachN] at hmc
    subst hmc
    exact ⟨a, rfl, ham⟩
  | n + 1, a, c, h => by
    obtain ⟨m, ham, hmc⟩ := h
    obtain ⟨b, hb, hbc⟩ := reachN_snoc_decomp graph n m c hmc
    exact ⟨b, ⟨m, ham, hb⟩, hbc⟩

/-- The loop invariant of the BFS of `findDependencies`:  the queue is
sorted by depth and spans at most two consecutive levels, visited
depths never exceed queued depths, every recorded entry carries a
witness path of exactly its depth, every visited node's edges are
accounted for, and the start node is recorded at depth 0. -/
structure BfsInv (graph : List (String × CallGraphNode)) (maxDepth : Nat)
    (startKey : String) (V Q : List (String × Nat)) : Prop where
  qsort : List.Pairwise (fun a b => a.2 ≤ b.2) Q
  qband : ∀ a ∈ Q, ∀ b ∈ Q, a.2 ≤ b.2 + 1
  vq : ∀ v ∈ V, ∀ q ∈ Q, v.2 ≤ q.2
  vdepth : ∀ v ∈ V, v.2 < maxDepth
  vpath : ∀ v ∈ V, reachN graph v.2 startKey v.1
  qpath : ∀ q ∈ Q, reachN graph q.2 startKey q.1
  closed : ∀ v ∈ V, ∀ node, lookupA graph v.1 = some node → ∀ e ∈ node.callees,
    (∃ w ∈ V, w.1 = e.toKey ∧ w.2 ≤ v.2 + 1) ∨ maxDepth ≤ v.2 + 1 ∨
      (∃ q ∈ Q, q.1 = e.toKey ∧ q.2 ≤ v.2 + 1)
  start : 0 < maxDepth → (startKey, 0) ∈ Q ∨ (startKey, 0) ∈ V
  vnodup : (V.map Prod.fst).Nodup

theorem mem_map_fst {V : List (String × Nat)} {k : String}
    (h : k ∈ V.map Prod.fst) : ∃ v ∈ V, v.1 = k := by
  simpa using List.mem_map.mp h

/-- Preservation: popping an already-visited or over-depth entry. -/
theorem bfsInv_skip {graph : List (String × CallGraphNode)} {maxDepth : Nat}
    {startKey k : String} {d : Nat} {V rest : List (String × Nat)}
    (hInv : BfsInv graph maxDepth startKey V ((k, d) :: rest))
    (hskip : k ∈ V.map Prod.fst ∨ maxDepth ≤ d) :
    BfsInv graph maxDepth startKey V rest := by
  have hhead : (k, d) ∈ (k, d) :: rest := List.mem_cons_self _ _
  refine ⟨(List.pairwise_cons.mp hInv.qsort).2, ?_, ?_, hInv.vdepth, hInv.vpath, ?_, ?_, ?_,
    hInv.vnodup⟩
  · intro a ha b hb
    exact hInv.qband a (List.mem_cons_of_mem _ ha) b (List.mem_cons_of_mem _ hb)
  · intro v hv q hq
    exact hInv.vq v hv q (List.mem_cons_of_mem _ hq)
  · intro q hq
    exact hInv.qpath q (List.mem_cons_of_mem _ hq)
  · intro v hv node hnode e he
    rcases hInv.closed v hv node hnode e he with h1 | h1 | ⟨q, hq, hq1, hq2⟩
    · exact Or.inl h1
    · exact Or.inr (Or.inl h1)
    · rcases List.mem_cons.mp hq with hq | hq
      · -- the witness was the popped entry
        rcases hskip with hvis | hdeep
        · obtain ⟨w, hw, hw1⟩ := mem_map_fst hvis
          refine Or.inl ⟨w, hw, ?_, ?_⟩
          · rw [hw1, ← hq1, hq]
          · have := hInv.vq w hw (k, d) hhead
            have hqd : q.2 = d := by rw [hq]
            omega
        · refine Or.inr (Or.inl ?_)
          have hqd : q.2 = d := by rw [hq]
          omega
      · exact Or.inr (Or.inr ⟨q, hq, hq1, hq2⟩)
  · intro hmd
    rcases hInv.start hmd with hq | hv
    · rcases List.mem_cons.mp hq with hq | hq
      · -- the start entry itself was popped: it is either already
        -- visited at depth 0 (by the depth ordering) or the depth
        -- cutoff is zero, which contradicts 0 < maxDepth
        have hk : k = startKey := congrArg Prod.fst hq.symm
        have hd0 : d = 0 := congrArg Prod.snd hq.symm
        rcases hskip with hvis | hdeep
        · obtain ⟨w, hw, hw1⟩ := mem_map_fst hvis
          have hw2 := hInv.vq w hw (k, d) hhead
          right
          have : w = (startKey, 0) := by
            have : w.2 = 0 := by omega
            cases w
            simp_all
          rw [← this]
          exact hw
        · omega
      · exact Or.inl hq
    · exact Or.inr hv

/-- Preservation: visiting a key that has no node in the graph. -/
theorem bfsInv_visit_none {graph : List (String × CallGraphNode)} {maxDepth : Nat}
    {startKey k : String} {d : Nat} {V rest : List (String × Nat)}
    (hInv : BfsInv graph maxDepth startKey V ((k, d) :: rest))
    (hnew : k ∉ V.map Prod.fst) (hd : d < maxDepth)
    (hnode : lookupA graph k = none) :
    BfsInv graph maxDepth startKey (V ++ [(k, d)]) rest := by
  have hhead : (k, d) ∈ (k, d) :: rest := List.mem_cons_self _ _
  have hmemV' : ∀ v ∈ V ++ [(k, d)], v ∈ V ∨ v = (k, d) := by
    intro v hv
    rcases List.mem_append.mp hv with h | h
    · exact Or.inl h
    · exact Or.inr (List.mem_singleton.mp h)
  refine ⟨(List.pairwise_cons.mp hInv.qsort).2, ?_, ?_, ?_, ?_, ?_, ?_, ?_, ?_⟩
  · intro a ha b hb
    exact hInv.qband a (List.mem_cons_of_mem _ ha) b (List.mem_cons_of_mem _ hb)
  · intro v hv q hq
    rcases hmemV' v hv with h | h
    · exact hInv.vq v h q (List.mem_cons_of_mem _ hq)
    · subst h
      exact (List.pairwise_cons.mp hInv.qsort).1 q hq
  · intro v hv
    rcases hmemV' v hv with h | h
    · exact hInv.vdepth v h
    · subst h; exact hd
  · intro v hv
    rcases hmemV' v hv with h | h
    · exact hInv.vpath v h
    · subst h; exact hInv.qpath (k, d) hhead
  · intro q hq
    exact hInv.qpath q (List.mem_cons_of_mem _ hq)
  · intro v hv node hn e he
    rcases hmemV' v hv with h | h
    · rcases hInv.closed v h node hn e he with ⟨w, hw, hw1, hw2⟩ | h1 | ⟨q, hq, hq1, hq2⟩
      · exact Or.inl ⟨w, List.mem_append_left _ hw, hw1, hw2⟩
      · exact Or.inr (Or.inl h1)
      · rcases List.mem_cons.mp hq with hq | hq
        · refine Or.inl ⟨(k, d), List.mem_append_right _ (by simp), ?_, ?_⟩
          · rw [← hq1, hq]
          · have hqd : q.2 = d := by rw [hq]
            omega
        · exact Or.inr (Or.inr ⟨q, hq, hq1, hq2⟩)
    · subst h
      rw [hnode] at hn
      cases hn
  · intro hmd
    rcases hInv.start hmd with hq | hv
    · rcases List.mem_cons.mp hq with hq | hq
      · exact Or.inr (List.mem_append_right _ (by rw [← hq]; simp))
      · exact Or.inl hq
    · exact Or.inr (List.mem_append_left _ hv)
  · rw [List.map_append]
    simp only [List.map_cons, List.map_nil]
    rw [List.nodup_append]
    exact ⟨hInv.vnodup, List.nodup_singleton k, by simpa using hnew⟩

/-- The entries appended to the queue when visiting `k` at depth `d`
with graph node `node`. -/
def newEntries (node : CallGraphNode) (d : Nat) (visitedKeys : List String) :
    List (String × Nat) :=
  (node.callees.filter fun e => e.toKey ∉ visitedKeys).map fun e => (e.toKey, d + 1)

theorem newEntries_depth {node : CallGraphNode} {d : Nat} {vk : List String}
    {x : String × Nat} (hx : x ∈ newEntries node d vk) : x.2 = d + 1 := by
  obtain ⟨e, _, rfl⟩ := List.mem_map.mp hx
  rfl

theorem pairwise_le_of_forall {l : List (String × Nat)}
    (h : ∀ x ∈ l, ∀ y ∈ l, x.2 ≤ y.2) :
    List.Pairwise (fun a b : String × Nat => a.2 ≤ b.2) l := by
  induction l with
  | nil => exact List.Pairwise.nil
  | cons a l ih =>
    refine List.pairwise_cons.mpr ⟨?_, ?_⟩
    · intro b hb
      exact h a (by simp) b (List.mem_cons_of_mem _ hb)
    · exact ih fun x hx y hy =>
        h x (List.mem_cons_of_mem _ hx) y (List.mem_cons_of_mem _ hy)

theorem newEntries_mem {node : CallGraphNode} {d : Nat} {vk : List String}
    {x : String × Nat} (hx : x ∈ newEntries node d vk) :
    ∃ e ∈ node.callees, e.toKey ∉ vk ∧ x = (e.toKey, d + 1) := by
  obtain ⟨e, he, rfl⟩ := List.mem_map.mp hx
  have := List.mem_filter.mp he
  refine ⟨e, this.1, by simpa using this.2, rfl⟩

/-- Preservation: visiting a key whose node exists. -/
theorem bfsInv_visit_some {graph : List (String × CallGraphNode)} {maxDepth : Nat}
    {startKey k : String} {d : Nat} {V rest : List (String × Nat)}
    {node : CallGraphNode}
    (hInv : BfsInv graph maxDepth startKey V ((k, d) :: rest))
    (hnew : k ∉ V.map Prod.fst) (hd : d < maxDepth)
    (hnode : lookupA graph k = some node) :
    BfsInv graph maxDepth startKey (V ++ [(k, d)])
      (rest ++ newEntries node d ((V ++ [(k, d)]).map Prod.fst)) := by
  have hhead : (k, d) ∈ (k, d) :: rest := List.mem_cons_self _ _
  set NE := newEntries node d ((V ++ [(k, d)]).map Prod.fst) with hNE
  have hmemV' : ∀ v ∈ V ++ [(k, d)], v ∈ V ∨ v = (k, d) := by
    intro v hv
    rcases List.mem_append.mp hv with h | h
    · exact Or.inl h
    · exact Or.inr (List.mem_singleton.mp h)
  have hrest_le : ∀ q ∈ rest, d ≤ q.2 :=
    (List.pairwise_cons.mp hInv.qsort).1
  have hrest_band : ∀ q ∈ rest, q.2 ≤ d + 1 := by
    intro q hq
    exact hInv.qband q (List.mem_cons_of_mem _ hq) (k, d) hhead
  have hne_depth : ∀ x ∈ NE, x.2 = d + 1 := fun x hx => newEntries_depth hx
  refine ⟨?_, ?_, ?_, ?_, ?_, ?_, ?_, ?_, ?_⟩
  · -- queue sortedness
    rw [List.pairwise_append]
    refine ⟨(List.pairwise_cons.mp hInv.qsort).2, ?_, ?_⟩
    · refine pairwise_le_of_forall fun x hx y hy => ?_
      rw [hne_depth x hx, hne_depth y hy]
    · intro a ha b hb
      rw [hne_depth b hb]
      exact hrest_band a ha
  · -- two-level band
    intro a ha b hb
    rcases List.mem_append.mp ha with ha | ha <;> rcases List.mem_append.mp hb with hb | hb
    · exact hInv.qband a (List.mem_cons_of_mem _ ha) b (List.mem_cons_of_mem _ hb)
    · rw [hne_depth b hb]
      have := hrest_band a ha
      omega
    · rw [hne_depth a ha]
      have := hrest_le b hb
      omega
    · rw [hne_depth a ha, hne_depth b hb]
      omega
  · -- visited depths below queued depths
    intro v hv q hq
    rcases hmemV' v hv with h | h
    · rcases List.mem_append.mp hq with hq | hq
      · exact hInv.vq v h q (List.mem_cons_of_mem _ hq)
      · rw [hne_depth q hq]
        have := hInv.vq v h (k, d) hhead
        omega
    · subst h
      rcases List.mem_append.mp hq with hq | hq
      · exact hrest_le q hq
      · rw [hne_depth q hq]
        omega
  · -- visited depth bound
    intro v hv
    rcases hmemV' v hv with h | h
    · exact hInv.vdepth v h
    · subst h; exact hd
  · -- visited path witnesses
    intro v hv
    rcases hmemV' v hv with h | h
    · exact hInv.vpath v h
    · subst h; exact hInv.qpath (k, d) hhead
  · -- queued path witnesses
    intro q hq
    rcases List.mem_append.mp hq with hq | hq
    · exact hInv.qpath q (List.mem_cons_of_mem _ hq)
    · obtain ⟨e, he, _, hx⟩ := newEntries_mem hq
      rw [hx]
      exact reachN_snoc graph d startKey k e.toKey (hInv.qpath (k, d) hhead)
        ⟨node, hnode, e, he, rfl⟩
  · -- every visited node's edges are accounted for
    intro v hv node' hn e he
    rcases hmemV' v hv with h | h
    · rcases hInv.closed v h node' hn e he with ⟨w, hw, hw1, hw2⟩ | h1 | ⟨q, hq, hq1, hq2⟩
      · exact Or.inl ⟨w, List.mem_append_left _ hw, hw1, hw2⟩
      · exact Or.inr (Or.inl h1)
      · rcases List.mem_cons.mp hq with hq | hq
        · refine Or.inl ⟨(k, d), List.mem_append_right _ (by simp), ?_, ?_⟩
          · rw [← hq1, hq]
          · have hqd : q.2 = d := by rw [hq]
            omega
        · exact Or.inr (Or.inr ⟨q, List.mem_append_left _ hq, hq1, hq2⟩)
    · subst h
      have hnn : node' = node := by
        rw [hnode] at hn
        exact (Option.some.injEq .. ▸ hn).symm
      subst hnn
      by_cases hvis : e.toKey ∈ (V ++ [(k, d)]).map Prod.fst
      · obtain ⟨w, hw, hw1⟩ := mem_map_fst hvis
        refine Or.inl ⟨w, hw, hw1, ?_⟩
        rcases hmemV' w hw with h | h
        · have := hInv.vq w h (k, d) hhead
          omega
        · subst h
          omega
      · refine Or.inr (Or.inr ⟨(e.toKey, d + 1), List.mem_append_right _ ?_, rfl, le_refl _⟩)
        rw [hNE]
        unfold newEntries
        exact List.mem_map_of_mem _ (List.mem_filter.mpr ⟨he, by simpa using hvis⟩)
  · -- the start entry persists
    intro hmd
    rcases hInv.start hmd with hq | hv
    · rcases List.mem_cons.mp hq with hq | hq
      · exact Or.inr (List.mem_append_right _ (by rw [← hq]; simp))
      · exact Or.inl (List.mem_append_left _ hq)
    · exact Or.inr (List.mem_append_left _ hv)
  · -- visited keys stay duplicate-free
    rw [List.map_append]
    simp only [List.map_cons, List.map_nil]
    rw [List.nodup_append]
    exact ⟨hInv.vnodup, List.nodup_singleton k, by simpa using hnew⟩

/-- Running the instrumented loop from an invariant state yields a
final visited list that satisfies the invariant with an empty queue. -/
theorem bfsLoopD_invariant (graph : List (String × CallGraphNode))
    (maxDepth : Nat) (startKey : String) :
    ∀ (fuel : Nat) (V Q R : List (String × Nat)),
      BfsInv graph maxDepth startKey V Q →
      bfsLoopD graph maxDepth fuel V Q = some R →
      BfsInv graph maxDepth startKey R []
  | 0, V, Q, R, _, h => by simp [bfsLoopD] at h
  | _ + 1, V, [], R, hInv, h => by
    simp only [bfsLoopD, Option.some.injEq] at h
    subst h
    exact hInv
  | fuel + 1, V, (k, d) :: rest, R, hInv, h => by
    simp only [bfsLoopD] at h
    by_cases hc : k ∈ V.map Prod.fst ∨ maxDepth ≤ d
    · rw [if_pos hc] at h
      exact bfsLoopD_invariant graph maxDepth startKey fuel V rest R
        (bfsInv_skip hInv hc) h
    · rw [if_neg hc] at h
      push_neg at hc
      obtain ⟨hnew, hdep⟩ := hc
      cases hnode : lookupA graph k with
      | none =>
        rw [hnode] at h
        exact bfsLoopD_invariant graph maxDepth startKey fuel (V ++ [(k, d)]) rest R
          (bfsInv_visit_none hInv hnew (by omega) hnode) h
      | some node =>
        rw [hnode] at h
        exact bfsLoopD_invariant graph maxDepth startKey fuel (V ++ [(k, d)])
          (rest ++ newEntries node d ((V ++ [(k, d)]).map Prod.fst)) R
          (bfsInv_visit_some hInv hnew (by omega) hnode) h

theorem lookupA_mem {β : Type} {m : List (String × β)} {k : String} {v : β}
    (h : lookupA m k = some v) : ∃ k', (k', v) ∈ m := by
  unfold lookupA at h
  obtain ⟨p, hp, hv⟩ := Option.map_eq_some'.mp h
  obtain ⟨k', v'⟩ := p
  simp only at hv
  subst hv
  exact ⟨k', List.mem_of_find?_eq_some hp⟩

theorem callees_le_totalCallees {graph : List (String × CallGraphNode)}
    {k' : String} {node : CallGraphNode} (h : (k', node) ∈ graph) :
    node.callees.length ≤ totalCallees graph := by
  unfold totalCallees
  refine List.single_le_sum (fun x _ => Nat.zero_le x) _ ?_
  exact List.mem_map_of_mem (fun p => p.2.callees.length) h

theorem target_mem_graphTargets {graph : List (String × CallGraphNode)}
    {k' : String} {node : CallGraphNode} {e : CallGraphEdge}
    (hm : (k', node) ∈ graph) (he : e ∈ node.callees) :
    e.toKey ∈ graphTargets graph := by
  unfold graphTargets
  rw [List.mem_flatten]
  exact ⟨node.callees.map (·.toKey),
    List.mem_map_of_mem (fun p => p.2.callees.map (·.toKey)) hm,
    List.mem_map_of_mem _ he⟩

/-- The termination measure of the BFS loop. -/
def bfsPotential (graph : List (String × CallGraphNode)) (startKey : String)
    (V Q : List (String × Nat)) : Nat :=
  Q.length +
    ((bfsUniverse graph startKey) \ (V.map Prod.fst).toFinset).card *
      (totalCallees graph + 1)

theorem visited_card_step {graph : List (String × CallGraphNode)}
    {startKey k : String} {d : Nat} {V : List (String × Nat)}
    (hkU : k ∈ bfsUniverse graph startKey) (hnew : k ∉ V.map Prod.fst) :
    ((bfsUniverse graph startKey) \ (((V ++ [(k, d)]).map Prod.fst)).toFinset).card + 1 =
      ((bfsUniverse graph startKey) \ ((V.map Prod.fst)).toFinset).card := by
  have h1 : ((V ++ [(k, d)]).map Prod.fst).toFinset =
      insert k (V.map Prod.fst).toFinset := by
    ext x
    simp [or_comm]
  rw [h1, Finset.sdiff_insert]
  have hmem : k ∈ (bfsUniverse graph startKey) \ (V.map Prod.fst).toFinset := by
    rw [Finset.mem_sdiff]
    exact ⟨hkU, by simpa using hnew⟩
  rw [Finset.card_erase_of_mem hmem]
  have : 0 < ((bfsUniverse graph startKey) \ (V.map Prod.fst).toFinset).card :=
    Finset.card_pos.mpr ⟨k, hmem⟩
  omega

/-- With fuel exceeding the potential, the BFS loop terminates with a
result (this is the termination argument of `findDependencies`). -/
theorem bfsLoopD_isSome (graph : List (String × CallGraphNode)) (maxDepth : Nat)
    (startKey : String) :
    ∀ (fuel : Nat) (V Q : List (String × Nat)),
      bfsPotential graph startKey V Q < fuel →
      (∀ q ∈ Q, q.1 ∈ bfsUniverse graph startKey) →
      (bfsLoopD graph maxDepth fuel V Q).isSome = true
  | 0, V, Q, hfuel, _ => absurd hfuel (by omega)
  | _ + 1, V, [], _, _ => by simp [bfsLoopD]
  | fuel + 1, V, (k, d) :: rest, hfuel, hkeys => by
    have hpot : bfsPotential graph startKey V ((k, d) :: rest) =
        bfsPotential graph startKey V rest + 1 := by
      simp [bfsPotential, List.length_cons]
      omega
    simp only [bfsLoopD]
    by_cases hc : k ∈ V.map Prod.fst ∨ maxDepth ≤ d
    · rw [if_pos hc]
      refine bfsLoopD_isSome graph maxDepth startKey fuel V rest (by omega) ?_
      exact fun q hq => hkeys q (List.mem_cons_of_mem _ hq)
    · rw [if_neg hc]
      push_neg at hc
      obtain ⟨hnew, _⟩ := hc
      have hkU : k ∈ bfsUniverse graph startKey := hkeys (k, d) (List.mem_cons_self _ _)
      have hcard := visited_card_step (d := d) (V := V) hkU hnew
      cases hnode : lookupA graph k with
      | none =>
        refine bfsLoopD_isSome graph maxDepth startKey fuel (V ++ [(k, d)]) rest ?_ ?_
        · have hmul : ((bfsUniverse graph startKey) \
                ((V ++ [(k, d)]).map Prod.fst).toFinset).card *
                  (totalCallees graph + 1) + (totalCallees graph + 1) =
                ((bfsUniverse graph startKey) \
                  ((V.map Prod.fst)).toFinset).card * (totalCallees graph + 1) := by
            rw [← hcard]; ring
          unfold bfsPotential at hfuel ⊢
          simp only [List.length_cons] at hfuel
          omega
        · exact fun q hq => hkeys q (List.mem_cons_of_mem _ hq)
      | some node =>
        obtain ⟨k', hk'⟩ := lookupA_mem hnode
        refine bfsLoopD_isSome graph maxDepth startKey fuel (V ++ [(k, d)])
          (rest ++ (node.callees.filter
            fun e => e.toKey ∉ (V ++ [(k, d)]).map Prod.fst).map
            fun e => (e.toKey, d + 1)) ?_ ?_
        · have hlen : ((node.callees.filter
              fun e => e.toKey ∉ (V ++ [(k, d)]).map Prod.fst).map
              fun e => (e.toKey, d + 1)).length ≤ totalCallees graph := by
            rw [List.length_map]
            exact (List.length_filter_le _ _).trans (callees_le_totalCallees hk')
          have hmul : ((bfsUniverse graph startKey) \
                ((V ++ [(k, d)]).map Prod.fst).toFinset).card *
                  (totalCallees graph + 1) + (totalCallees graph + 1) =
                ((bfsUniverse graph startKey) \
                  ((V.map Prod.fst)).toFinset).card * (totalCallees graph + 1) := by
            rw [← hcard]; ring
          unfold bfsPotential at hfuel ⊢
          rw [List.length_append]
          simp only [List.length_cons] at hfuel
          omega
        · intro q hq
          rcases List.mem_append.mp hq with hq | hq
          · exact hkeys q (List.mem_cons_of_mem _ hq)
          · obtain ⟨e, he, rfl⟩ := List.mem_map.mp hq
            have hef := (List.mem_filter.mp he).1
            unfold bfsUniverse
            rw [Finset.mem_insert]
            right
            rw [List.mem_toFinset]
            exact target_mem_graphTargets hk' hef

/-- `bfsLoop` is the key projection of the instrumented loop. -/
theorem bfsLoop_proj (graph : List (String × CallGraphNode)) (maxDepth : Nat) :
    ∀ (fuel : Nat) (V Q : List (String × Nat)),
      bfsLoop graph maxDepth fuel (V.map Prod.fst) Q =
        (bfsLoopD graph maxDepth fuel V Q).map (List.map Prod.fst)
  | 0, _, _ => rfl
  | _ + 1, V, [] => rfl
  | fuel + 1, V, (key, depth) :: rest => by
    simp only [bfsLoop, bfsLoopD]
    by_cases h : key ∈ V.map Prod.fst ∨ maxDepth ≤ depth
    · rw [if_pos h, if_pos h, bfsLoop_proj graph maxDepth fuel V rest]
    · rw [if_neg h, if_neg h]
      have hfst : V.map Prod.fst ++ [key] = (V ++ [(key, depth)]).map Prod.fst := by
        simp
      cases hnode : lookupA graph key with
      | none =>
        rw [hfst]
        exact bfsLoop_proj graph maxDepth fuel (V ++ [(key, depth)]) rest
      | some node =>
        rw [hfst]
        exact bfsLoop_proj graph maxDepth fuel (V ++ [(key, depth)])
          (rest ++ (node.callees.filter
            fun e => e.toKey ∉ (V ++ [(key, depth)]).map Prod.fst).map
            fun e => (e.toKey, depth + 1))

/-- The invariant holds at the initial state of the BFS. -/
theorem bfsInv_init (graph : List (String × CallGraphNode)) (maxDepth : Nat)
    (startKey : String) :
    BfsInv graph maxDepth startKey [] [(startKey, 0)] := by
  refine ⟨?_, ?_, ?_, ?_, ?_, ?_, ?_, ?_, ?_⟩
  · simp
  · intro a ha b hb
    simp only [List.mem_singleton] at ha hb
    subst ha; subst hb; omega
  · intro v hv; cases hv
  · intro v hv; cases hv
  · intro v hv; cases hv
  · intro q hq
    simp only [List.mem_singleton] at hq
    subst hq
    rfl
  · intro v hv; cases hv
  · intro _
    exact Or.inl (by simp)
  · simp

/-- Completeness of the final visited list: every key reachable in
fewer than `maxDepth` steps was visited, at a depth bounded by the path
length. -/
theorem bfsInv_complete {graph : List (String × CallGraphNode)} {maxDepth : Nat}
    {startKey : String} {R : List (String × Nat)}
    (hInv : BfsInv graph maxDepth startKey R []) :
    ∀ (L : Nat) (key : String), L < maxDepth → reachN graph L startKey key →
      ∃ v ∈ R, v.1 = key ∧ v.2 ≤ L
  | 0, key, hL, hreach => by
    simp only [reachN] at hreach
    subst hreach
    rcases hInv.start (by omega) with hq | hv
    · cases hq
    · exact ⟨(startKey, 0), hv, rfl, le_refl _⟩
  | L + 1, key, hL, hreach => by
    obtain ⟨b, hb, hstep⟩ := reachN_snoc_decomp graph L startKey key hreach
    obtain ⟨v, hv, hv1, hv2⟩ := bfsInv_complete hInv L b (by omega) hb
    obtain ⟨node, hnode, e, he, hek⟩ := hstep
    rw [← hv1] at hnode
    rcases hInv.closed v hv node hnode e he with ⟨w, hw, hw1, hw2⟩ | hdeep | ⟨q, hq, _, _⟩
    · refine ⟨w, hw, ?_, by omega⟩
      rw [hw1, hek]
    · exfalso
      have := hInv.vdepth v hv
      omega
    · cases hq

/-- Claim C4 — counterexample graph: one edge from `a.ts:f` to
`a.ts:g`, nothing else. -/
def chainGraph : List (String × CallGraphNode) :=
  [("a.ts:f", ⟨"f", "a.ts", 1, [], [⟨"a.ts:f", "a.ts:g", "a.ts", 1⟩]⟩),
   ("a.ts:g", ⟨"g", "a.ts", 2, [⟨"a.ts:f", "a.ts:g", "a.ts", 1⟩], []⟩)]

/-- Claim C4 — counterexample.  With `maxDepth = 1`, the node `a.ts:g`
is found at exactly depth `maxDepth`, and the claim says such nodes are
included in the returned set; but `findDependencies` returns the empty
set, because an entry popped with `depth >= maxDepth` is discarded
before being added to the visited set. -/
theorem findDependencies_drops_frontier :
    findDependencies "f" "a.ts" chainGraph 1 = [] ∧
      calleeStep chainGraph (nodeKey "a.ts" "f") (nodeKey "a.ts" "g") ∧
      nodeKey "a.ts" "g" ≠ nodeKey "a.ts" "f" := by
  refine ⟨by decide, ?_, by decide⟩
  refine ⟨⟨"f", "a.ts", 1, [], [⟨"a.ts:f", "a.ts:g", "a.ts", 1⟩]⟩, by decide, ?_⟩
  exact ⟨⟨"a.ts:f", "a.ts:g", "a.ts", 1⟩, by decide, by decide⟩

/-- Claim C4 — amended.  For every graph, start key and `maxDepth`,
`findDependencies` returns exactly the keys reachable from the start
along callee edges by a path of FEWER than `maxDepth` steps (not
`maxDepth`: entries popped at depth `maxDepth` are pruned without being
recorded), excluding the start key itself; each node is visited at most
once and the traversal always terminates. -/
theorem findDependencies_mem_iff (funcName file : String)
    (graph : List (String × CallGraphNode)) (maxDepth : Nat) (key : String) :
    key ∈ findDependencies funcName file graph maxDepth ↔
      key ≠ nodeKey file funcName ∧
        ∃ L, L < maxDepth ∧ reachN graph L (nodeKey file funcName) key := by
  have hsome := bfsLoopD_isSome graph maxDepth (nodeKey file funcName)
    (bfsFuel graph (nodeKey file funcName)) [] [(nodeKey file funcName, 0)]
    (by
      unfold bfsPotential bfsFuel
      simp [Finset.sdiff_empty])
    (by
      intro q hq
      simp only [List.mem_singleton] at hq
      subst hq
      unfold bfsUniverse
      simp)
  obtain ⟨R, hR⟩ := Option.isSome_iff_exists.mp hsome
  have hInv := bfsLoopD_invariant graph maxDepth (nodeKey file funcName)
    (bfsFuel graph (nodeKey file funcName)) [] [(nodeKey file funcName, 0)] R
    (bfsInv_init graph maxDepth (nodeKey file funcName)) hR
  have hproj := bfsLoop_proj graph maxDepth (bfsFuel graph (nodeKey file funcName))
    [] [(nodeKey file funcName, 0)]
  rw [hR] at hproj
  simp only [List.map_nil, Option.map_some'] at hproj
  have hres : findDependencies funcName file graph maxDepth =
      (R.map Prod.fst).erase (nodeKey file funcName) := by
    simp only [findDependencies, hproj]
  rw [hres, List.Nodup.mem_erase_iff hInv.vnodup]
  constructor
  · rintro ⟨hne, hmem⟩
    obtain ⟨v, hv, hv1⟩ := mem_map_fst hmem
    exact ⟨hne, v.2, hInv.vdepth v hv, hv1 ▸ hInv.vpath v hv⟩
  · rintro ⟨hne, L, hL, hreach⟩
    obtain ⟨v, hv, hv1, _⟩ := bfsInv_complete hInv L key hL hreach
    refine ⟨hne, ?_⟩
    rw [← hv1]
    exact List.mem_map_of_mem Prod.fst hv

/-- Claim C5 — the two-node mutual-recursion cycle. -/
def cycleGraph : List (String × CallGraphNode) :=
  [("a.ts:f", ⟨"f", "a.ts", 1, [⟨"a.ts:g", "a.ts:f", "a.ts", 2⟩],
      [⟨"a.ts:f", "a.ts:g", "a.ts", 1⟩]⟩),
   ("a.ts:g", ⟨"g", "a.ts", 2, [⟨"a.ts:f", "a.ts:g", "a.ts", 1⟩],
      [⟨"a.ts:g", "a.ts:f", "a.ts", 2⟩]⟩)]

/-- Claim C5 — confirmed.  On the cyclic graph `A→B→A`, the traversal
with `maxDepth = 10` terminates (the loop finishes with fuel to spare,
i.e. returns a result rather than running out) and returns exactly
`{B}`: the visited set prevents requeueing `A`. -/
theorem findDependencies_cycle_terminates :
    (bfsLoop cycleGraph 10 (bfsFuel cycleGraph (nodeKey "a.ts" "f")) []
        [(nodeKey "a.ts" "f", 0)]).isSome = true ∧
      findDependencies "f" "a.ts" cycleGraph 10 = ["a.ts:g"] := by
  constructor
  · decide
  · decide

/-! ## `buildCallGraph` (`src/analysis/call-graph.ts`) -/

/-- `FunctionInfo` from `src/types/index.ts`. -/
structure FunctionInfo where
  name : String
  line : Nat
  column : Nat
  params : List String
  returnType : Option String
  isAsync : Bool
  isExported : Bool
  complexity : Nat
  calls : List String
deriving DecidableEq, Repr

/-- `DependencyInfo` from `src/types/index.ts` (`type` is one of
`import` / `require` / `dynamic`). -/
structure DependencyInfo where
  type : String
  source : String
  specifiers : List String
  line : Nat
  isExternal : Bool
deriving DecidableEq, Repr

/-- The per-file value of the `fileAnalysis` map fed to
`buildCallGraph`. -/
structure Analysis where
  functions : List FunctionInfo
  dependencies : List DependencyInfo
deriving DecidableEq, Repr

/-- `Map.set`: replace the value of an existing key in place, else
append the new binding. -/
def setA {β : Type} : List (String × β) → String → β → List (String × β)
  | [], k, v => [(k, v)]
  | (k', v') :: rest, k, v =>
    if k' = k then (k, v) :: rest else (k', v') :: setA rest k v

/-- Update the value of the first binding of a key, if present
(modelling a mutation of the object the map points to). -/
def updateA {β : Type} : List (String × β) → String → (β → β) → List (String × β)
  | [], _, _ => []
  | (k', v') :: rest, k, f =>
    if k' = k then (k', f v') :: rest else (k', v') :: updateA rest k f

/-- `String.prototype.startsWith('.')`. -/
def startsWithDot (s : String) : Bool := ['.'].isPrefixOf s.data

/-- `resolveImportPath` from `src/analysis/call-graph.ts`: `.`/`..`
segment resolution of a relative specifier against the current file's
directory; non-relative specifiers are returned unchanged. -/
def resolveImportPath (importPath currentFile : String) : String :=
  if startsWithDot importPath then
    let currentDir := List.intercalate ['/'] ((splitOnChar '/' currentFile.data).dropLast)
    let parts := splitOnChar '/' importPath.data
    let dirParts := splitOnChar '/' currentDir
    ⟨List.intercalate ['/'] (parts.foldl
      (fun dp part =>
        if part = ['.'] then dp
        else if part = "..".data then dp.dropLast
        else dp ++ [part]) dirParts)⟩
  else importPath

/-- The dependency loop of `findFunctionInImports`. -/
def findDepLoop (funcName currentFile : String)
    (fileAnalysis : List (String × Analysis)) :
    List DependencyInfo → Option (String × FunctionInfo)
  | [] => none
  | dep :: rest =>
    if dep.isExternal then findDepLoop funcName currentFile fileAnalysis rest
    else
      let depFile := resolveImportPath dep.source currentFile
      match lookupA fileAnalysis depFile with
      | none => findDepLoop funcName currentFile fileAnalysis rest
      | some depAnalysis =>
        match depAnalysis.functions.find? fun f => f.name = funcName with
        | some func => some (depFile, func)
        | none => findDepLoop funcName currentFile fileAnalysis rest

/-- `findFunctionInImports` from `src/analysis/call-graph.ts`. -/
def findFunctionInImports (funcName currentFile : String)
    (fileAnalysis : List (String × Analysis)) : Option (String × FunctionInfo) :=
  match lookupA fileAnalysis currentFile with
  | none => none
  | some analysis => findDepLoop funcName currentFile fileAnalysis analysis.dependencies

/-- The edge insertion of pass 2: one edge object pushed onto the
caller's callee list and the callee's caller list (the two pushes on
the shared node objects become two sequential map updates). -/
def addEdge (graph : List (String × CallGraphNode)) (fromK toK file : String)
    (line : Nat) : List (String × CallGraphNode) :=
  let edge : CallGraphEdge := ⟨fromK, toK, file, line⟩
  let g1 := updateA graph fromK fun nd => { nd with callees := nd.callees ++ [edge] }
  updateA g1 toK fun nd => { nd with callers := nd.callers ++ [edge] }

/-- The body of pass 2 for one outgoing call name. -/
def processOneCall (g : List (String × CallGraphNode)) (file : String)
    (fn : FunctionInfo) (callerKey call : String)
    (fa : List (String × Analysis)) : List (String × CallGraphNode) :=
  let calleeKey := file ++ ":" ++ call
  match lookupA g calleeKey with
  | some _ => addEdge g callerKey calleeKey file fn.line
  | none =>
    match findFunctionInImports call file fa with
    | some imported =>
      let importedKey := imported.1 ++ ":" ++ call
      match lookupA g importedKey with
      | some _ => addEdge g callerKey importedKey file fn.line
      | none => g
    | none => g

/-- The body of pass 2 for one function. -/
def pass2Fn (fa : List (String × Analysis)) (file : String)
    (g : List (String × CallGraphNode)) (fn : FunctionInfo) :
    List (String × CallGraphNode) :=
  let callerKey := file ++ ":" ++ fn.name
  match lookupA g callerKey with
  | none => g
  | some _ =>
    fn.calls.foldl (fun g call => processOneCall g file fn callerKey call fa) g

/-- Pass 1 of `buildCallGraph`: one node per `(file, functionName)`
(duplicate names overwrite). -/
def pass1 (fa : List (String × Analysis)) : List (String × CallGraphNode) :=
  fa.foldl
    (fun g p => p.2.functions.foldl
      (fun g fn => setA g (p.1 ++ ":" ++ fn.name) ⟨fn.name, p.1, fn.line, [], []⟩) g)
    []

/-- `buildCallGraph` from `src/analysis/call-graph.ts`. -/
def buildCallGraph (fa : List (String × Analysis)) : List (String × CallGraphNode) :=
  fa.foldl (fun g p => p.2.functions.foldl (fun g fn => pass2Fn fa p.1 g fn) g)
    (pass1 fa)

/-! ### The resolution policy spelled out as in the specification -/

/-- The functions recorded for a file. -/
def functionsOf (fa : List (String × Analysis)) (file : String) : List FunctionInfo :=
  match lookupA fa file with
  | some a => a.functions
  | none => []

/-- The dependencies recorded for a file. -/
def dependenciesOf (fa : List (String × Analysis)) (file : String) : List DependencyInfo :=
  match lookupA fa file with
  | some a => a.dependencies
  | none => []

/-- Modelled from the spec: the dependency scan of the resolution
policy — each internal (relative-specifier) dependency of the file, in
declaration order, its specifier resolved against the caller file's
directory, then that file's functions searched by name; first match
wins. -/
def specDepSearch (fa : List (String × Analysis)) (call file : String) :
    List DependencyInfo → Option String
  | [] => none
  | dep :: rest =>
    if startsWithDot dep.source then
      let depFile := resolveImportPath dep.source file
      if (functionsOf fa depFile).any fun f => f.name = call then
        some (depFile ++ ":" ++ call)
      else specDepSearch fa call file rest
    else specDepSearch fa call file rest

/-- Modelled from the spec: the full callee-resolution policy of claim
C6 — first an exact-name match among the caller file's own functions,
then the internal dependencies in declaration order; `none` when no
match exists. -/
def specResolveCallee (fa : List (String × Analysis)) (file call : String) :
    Option String :=
  if (functionsOf fa file).any fun f => f.name = call then
    some (file ++ ":" ++ call)
  else specDepSearch fa call file (dependenciesOf fa file)

/-- Modelled from the spec: pass 2 driven by `specResolveCallee` — for
every function's every outgoing call, in order, a resolved call
appends exactly one edge to the caller's callee list and the callee's
caller list, and an unresolved call changes nothing. -/
def specBuild (fa : List (String × Analysis)) : List (String × CallGraphNode) :=
  fa.foldl
    (fun g p => p.2.functions.foldl
      (fun g fn => fn.calls.foldl
        (fun g call =>
          match specResolveCallee fa p.1 call with
          | some calleeKey => addEdge g (p.1 ++ ":" ++ fn.name) calleeKey p.1 fn.line
          | none => g) g) g)
    (pass1 fa)

/-! ### Association-list lemmas -/

theorem lookupA_cons_self {β : Type} (k : String) (v : β) (rest : List (String × β)) :
    lookupA ((k, v) :: rest) k = some v := by
  simp [lookupA, List.find?_cons_of_pos]

theorem lookupA_cons_ne {β : Type} {k' k : String} (v : β) (rest : List (String × β))
    (h : k' ≠ k) : lookupA ((k', v) :: rest) k = lookupA rest k := by
  simp only [lookupA]
  rw [List.find?_cons_of_neg]
  simpa using h

theorem lookupA_isSome_iff {β : Type} (m : List (String × β)) (k : String) :
    (lookupA m k).isSome = true ↔ k ∈ m.map Prod.fst := by
  induction m with
  | nil => simp [lookupA]
  | cons p rest ih =>
    obtain ⟨k', v'⟩ := p
    by_cases h : k' = k
    · subst h
      rw [lookupA_cons_self]
      simp
    · rw [lookupA_cons_ne v' rest h]
      simp only [List.map_cons, List.mem_cons]
      rw [ih]
      constructor
      · exact Or.inr
      · rintro (hc | hc)
        · exact absurd hc.symm h
        · exact hc

theorem lookupA_eq_some_mem {β : Type} {m : List (String × β)} {k : String} {v : β}
    (h : lookupA m k = some v) : (k, v) ∈ m := by
  unfold lookupA at h
  obtain ⟨p, hp, hv⟩ := Option.map_eq_some'.mp h
  have hmem := List.mem_of_find?_eq_some hp
  have hkey := List.find?_some hp
  simp only [decide_eq_true_eq] at hkey
  obtain ⟨k', v'⟩ := p
  simp only at hkey hv
  subst hkey
  subst hv
  exact hmem

theorem lookupA_of_mem_nodup {β : Type} :
    ∀ {m : List (String × β)} {k : String} {v : β},
      (k, v) ∈ m → (m.map Prod.fst).Nodup → lookupA m k = some v := by
  intro m
  induction m with
  | nil => intro k v h _; cases h
  | cons p rest ih =>
    intro k v h hnd
    obtain ⟨k', v'⟩ := p
    simp only [List.map_cons, List.nodup_cons] at hnd
    rcases List.mem_cons.mp h with h1 | h1
    · have hk : k = k' := congrArg Prod.fst h1
      have hv : v = v' := congrArg Prod.snd h1
      subst hk
      rw [hv]
      exact lookupA_cons_self k v' rest
    · by_cases hk : k' = k
      · subst hk
        exfalso
        exact hnd.1 (List.mem_map_of_mem Prod.fst h1)
      · rw [lookupA_cons_ne v' rest hk]
        exact ih h1 hnd.2

theorem updateA_keys {β : Type} (m : List (String × β)) (k : String) (f : β → β) :
    (updateA m k f).map Prod.fst = m.map Prod.fst := by
  induction m with
  | nil => rfl
  | cons p rest ih =>
    obtain ⟨k', v'⟩ := p
    by_cases h : k' = k
    · subst h
      simp [updateA]
    · simp [updateA, h, ih]

theorem addEdge_keys (g : List (String × CallGraphNode)) (a b file : String)
    (line : Nat) : (addEdge g a b file line).map Prod.fst = g.map Prod.fst := by
  unfold addEdge
  rw [updateA_keys, updateA_keys]

theorem setA_mem_keys {β : Type} (m : List (String × β)) (k x : String) (v : β) :
    x ∈ (setA m k v).map Prod.fst ↔ x ∈ m.map Prod.fst ∨ x = k := by
  induction m with
  | nil => simp [setA]
  | cons p rest ih =>
    obtain ⟨k', v'⟩ := p
    by_cases h : k' = k
    · subst h
      have hs : setA ((k', v') :: rest) k' v = (k', v) :: rest := by
        simp [setA]
      rw [hs]
      simp only [List.map_cons, List.mem_cons]
      tauto
    · have hs : setA ((k', v') :: rest) k v = (k', v') :: setA rest k v := by
        simp [setA, h]
      rw [hs]
      simp only [List.map_cons, List.mem_cons]
      rw [ih]
      tauto

theorem pass1Inner_mem (file : String) (fns : List FunctionInfo) :
    ∀ (g : List (String × CallGraphNode)) (x : String),
      x ∈ ((fns.foldl
        (fun g fn => setA g (file ++ ":" ++ fn.name) ⟨fn.name, file, fn.line, [], []⟩)
        g).map Prod.fst) ↔
      x ∈ g.map Prod.fst ∨ ∃ fn ∈ fns, file ++ ":" ++ fn.name = x := by
  induction fns with
  | nil => intro g x; simp
  | cons fn fns ih =>
    intro g x
    simp only [List.foldl_cons]
    rw [ih]
    rw [setA_mem_keys]
    constructor
    · rintro ((h | h) | ⟨fn', hfn', h⟩)
      · exact Or.inl h
      · exact Or.inr ⟨fn, by simp, h.symm⟩
      · exact Or.inr ⟨fn', List.mem_cons_of_mem _ hfn', h⟩
    · rintro (h | ⟨fn', hfn', h⟩)
      · exact Or.inl (Or.inl h)
      · rcases List.mem_cons.mp hfn' with h1 | h1
        · subst h1
          exact Or.inl (Or.inr h.symm)
        · exact Or.inr ⟨fn', h1, h⟩

theorem pass1_mem (fa : List (String × Analysis)) (x : String) :
    x ∈ (pass1 fa).map Prod.fst ↔
      ∃ p ∈ fa, ∃ fn ∈ p.2.functions, p.1 ++ ":" ++ fn.name = x := by
  suffices h : ∀ (l : List (String × Analysis)) (g : List (String × CallGraphNode)),
      x ∈ ((l.foldl (fun g p => p.2.functions.foldl
        (fun g fn => setA g (p.1 ++ ":" ++ fn.name) ⟨fn.name, p.1, fn.line, [], []⟩) g)
        g).map Prod.fst) ↔
      x ∈ g.map Prod.fst ∨ ∃ p ∈ l, ∃ fn ∈ p.2.functions, p.1 ++ ":" ++ fn.name = x by
    unfold pass1
    rw [h fa []]
    simp
  intro l
  induction l with
  | nil => intro g; simp
  | cons p l ih =>
    intro g
    simp only [List.foldl_cons]
    rw [ih, pass1Inner_mem]
    constructor
    · rintro ((h | ⟨fn, hfn, h⟩) | ⟨p', hp', fn, hfn, h⟩)
      · exact Or.inl h
      · exact Or.inr ⟨p, by simp, fn, hfn, h⟩
      · exact Or.inr ⟨p', List.mem_cons_of_mem _ hp', fn, hfn, h⟩
    · rintro (h | ⟨p', hp', fn, hfn, h⟩)
      · exact Or.inl (Or.inl h)
      · rcases List.mem_cons.mp hp' with h1 | h1
        · subst h1
          exact Or.inl (Or.inr ⟨fn, hfn, h⟩)
        · exact Or.inr ⟨p', h1, fn, hfn, h⟩

/-! ### Injectivity of the `file:functionName` string keys for
colon-free function names -/

theorem sep_eq_split :
    ∀ (ys₁ ys₂ zs₁ zs₂ : List Char), ':' ∉ ys₁ → ':' ∉ ys₂ →
      ys₁ ++ ':' :: zs₁ = ys₂ ++ ':' :: zs₂ → ys₁ = ys₂ ∧ zs₁ = zs₂
  | [], [], zs₁, zs₂, _, _, h => ⟨rfl, by simpa using h⟩
  | [], c :: ys₂, zs₁, zs₂, _, h₂, h => by
    exfalso
    simp only [List.nil_append, List.cons_append, List.cons.injEq] at h
    exact h₂ (h.1 ▸ List.mem_cons_self c ys₂)
  | c :: ys₁, [], zs₁, zs₂, h₁, _, h => by
    exfalso
    simp only [List.nil_append, List.cons_append, List.cons.injEq] at h
    exact h₁ (h.1 ▸ List.mem_cons_self c ys₁)
  | c₁ :: ys₁, c₂ :: ys₂, zs₁, zs₂, h₁, h₂, h => by
    simp only [List.cons_append, List.cons.injEq] at h
    obtain ⟨hc, ht⟩ := h
    obtain ⟨hy, hz⟩ := sep_eq_split ys₁ ys₂ zs₁ zs₂
      (fun hm => h₁ (List.mem_cons_of_mem _ hm))
      (fun hm => h₂ (List.mem_cons_of_mem _ hm)) ht
    exact ⟨by rw [hc, hy], hz⟩

theorem key_inj {f₁ n₁ f₂ n₂ : String} (h₁ : ':' ∉ n₁.data) (h₂ : ':' ∉ n₂.data)
    (h : f₁ ++ ":" ++ n₁ = f₂ ++ ":" ++ n₂) : f₁ = f₂ ∧ n₁ = n₂ := by
  have hd : f₁.data ++ ':' :: n₁.data = f₂.data ++ ':' :: n₂.data := by
    have := congrArg String.data h
    simpa [String.data_append] using this
  have hrev : n₁.data.reverse ++ ':' :: f₁.data.reverse =
      n₂.data.reverse ++ ':' :: f₂.data.reverse := by
    have := congrArg List.reverse hd
    simpa [List.reverse_append] using this
  obtain ⟨hn, hf⟩ := sep_eq_split _ _ _ _
    (by simpa using h₁) (by simpa using h₂) hrev
  constructor
  · exact (string_eq_iff_data _ _).mpr (List.reverse_injective hf)
  · exact (string_eq_iff_data _ _).mpr (List.reverse_injective hn)

/-! ### Equivalence of pass 2 with the spelled-out resolution policy -/

theorem keyLookup_any_iff {fa : List (String × Analysis)}
    (hnodup : (fa.map Prod.fst).Nodup)
    (hnames : ∀ p ∈ fa, ∀ fn ∈ p.2.functions, ':' ∉ fn.name.data)
    {call : String} (hcall : ':' ∉ call.data) (file : String)
    {g : List (String × CallGraphNode)}
    (hkeys : g.map Prod.fst = (pass1 fa).map Prod.fst) :
    (lookupA g (file ++ ":" ++ call)).isSome = true ↔
      ((functionsOf fa file).any fun f => f.name = call) = true := by
  rw [lookupA_isSome_iff, hkeys, pass1_mem]
  constructor
  · rintro ⟨p, hp, fn, hfn, hkey⟩
    obtain ⟨hf, hn⟩ := key_inj (hnames p hp fn hfn) hcall hkey
    have hlk : lookupA fa file = some p.2 := by
      rw [← hf]
      exact lookupA_of_mem_nodup hp hnodup
    unfold functionsOf
    rw [hlk, List.any_eq_true]
    exact ⟨fn, hfn, by simp [hn]⟩
  · intro hany
    rw [List.any_eq_true] at hany
    obtain ⟨fn, hfn, hfnc⟩ := hany
    simp only [decide_eq_true_eq] at hfnc
    unfold functionsOf at hfn
    cases hlk : lookupA fa file with
    | none => rw [hlk] at hfn; cases hfn
    | some a =>
      rw [hlk] at hfn
      exact ⟨(file, a), lookupA_eq_some_mem hlk, fn, hfn, by rw [hfnc]⟩

theorem findDepLoop_cons_ext {dep : DependencyInfo} {rest : List DependencyInfo}
    {call file : String} {fa : List (String × Analysis)}
    (h : dep.isExternal = true) :
    findDepLoop call file fa (dep :: rest) = findDepLoop call file fa rest := by
  simp [findDepLoop, h]

theorem findDepLoop_cons_none {dep : DependencyInfo} {rest : List DependencyInfo}
    {call file : String} {fa : List (String × Analysis)}
    (hex : dep.isExternal = false)
    (hl : lookupA fa (resolveImportPath dep.source file) = none) :
    findDepLoop call file fa (dep :: rest) = findDepLoop call file fa rest := by
  simp [findDepLoop, hex, hl]

theorem findDepLoop_cons_found {dep : DependencyInfo} {rest : List DependencyInfo}
    {call file : String} {fa : List (String × Analysis)} {dA : Analysis}
    {func : FunctionInfo} (hex : dep.isExternal = false)
    (hl : lookupA fa (resolveImportPath dep.source file) = some dA)
    (hf : (dA.functions.find? fun f => f.name = call) = some func) :
    findDepLoop call file fa (dep :: rest) =
      some (resolveImportPath dep.source file, func) := by
  simp [findDepLoop, hex, hl, hf]

theorem findDepLoop_cons_notfound {dep : DependencyInfo} {rest : List DependencyInfo}
    {call file : String} {fa : List (String × Analysis)} {dA : Analysis}
    (hex : dep.isExternal = false)
    (hl : lookupA fa (resolveImportPath dep.source file) = some dA)
    (hf : (dA.functions.find? fun f => f.name = call) = none) :
    findDepLoop call file fa (dep :: rest) = findDepLoop call file fa rest := by
  simp [findDepLoop, hex, hl, hf]

theorem findDepLoop_spec (fa : List (String × Analysis)) (call file : String) :
    ∀ (deps : List DependencyInfo),
      (∀ dep ∈ deps, dep.isExternal = !(startsWithDot dep.source)) →
      (findDepLoop call file fa deps).map (fun i => i.1 ++ ":" ++ call) =
        specDepSearch fa call file deps
  | [], _ => rfl
  | dep :: rest, hext => by
    have hde := hext dep (List.mem_cons_self _ _)
    have hrest := fun d hd => hext d (List.mem_cons_of_mem dep hd)
    have ih := findDepLoop_spec fa call file rest hrest
    by_cases hdot : startsWithDot dep.source = true
    · have hex : dep.isExternal = false := by rw [hde, hdot]; rfl
      cases hl : lookupA fa (resolveImportPath dep.source file) with
      | none =>
        have hfo : functionsOf fa (resolveImportPath dep.source file) = [] := by
          unfold functionsOf
          rw [hl]
        rw [findDepLoop_cons_none hex hl]
        simp only [specDepSearch]
        rw [if_pos hdot, hfo]
        simpa using ih
      | some depAnalysis =>
        have hfo : functionsOf fa (resolveImportPath dep.source file) =
            depAnalysis.functions := by
          unfold functionsOf
          rw [hl]
        cases hf : depAnalysis.functions.find? fun f => f.name = call with
        | some func =>
          have hpf := List.find?_some hf
          have hany : (depAnalysis.functions.any fun f => f.name = call) = true := by
            rw [List.any_eq_true]
            exact ⟨func, List.mem_of_find?_eq_some hf, hpf⟩
          rw [findDepLoop_cons_found hex hl hf]
          simp only [specDepSearch]
          rw [if_pos hdot, hfo, if_pos hany]
          simp
        | none =>
          have hany : (depAnalysis.functions.any fun f => f.name = call) = false := by
            rw [Bool.eq_false_iff]
            intro hc
            rw [List.any_eq_true] at hc
            obtain ⟨fn, hm, hp⟩ := hc
            exact List.find?_eq_none.mp hf fn hm hp
          rw [findDepLoop_cons_notfound hex hl hf]
          simp only [specDepSearch]
          rw [if_pos hdot, hfo, if_neg (by simp [hany])]
          exact ih
    · have hdot' : startsWithDot dep.source = false := by
        cases h : startsWithDot dep.source
        · rfl
        · exact absurd h hdot
      have hex : dep.isExternal = true := by rw [hde, hdot']; rfl
      rw [findDepLoop_cons_ext hex]
      simp only [specDepSearch]
      rw [if_neg (by simp [hdot'])]
      exact ih

theorem findDepLoop_sound (fa : List (String × Analysis)) (call file : String) :
    ∀ (deps : List DependencyInfo) (depFile : String) (func : FunctionInfo),
      findDepLoop call file fa deps = some (depFile, func) →
      ∃ a, lookupA fa depFile = some a ∧ func ∈ a.functions ∧ func.name = call
  | [], _, _, h => by cases h
  | dep :: rest, depFile, func, h => by
    by_cases hex : dep.isExternal = true
    · rw [findDepLoop_cons_ext hex] at h
      exact findDepLoop_sound fa call file rest depFile func h
    · have hex' : dep.isExternal = false := by
        cases hb : dep.isExternal
        · rfl
        · exact absurd hb hex
      cases hl : lookupA fa (resolveImportPath dep.source file) with
      | none =>
        rw [findDepLoop_cons_none hex' hl] at h
        exact findDepLoop_sound fa call file rest depFile func h
      | some depAnalysis =>
        cases hf : depAnalysis.functions.find? fun f => f.name = call with
        | some fnd =>
          rw [findDepLoop_cons_found hex' hl hf] at h
          simp only [Option.some.injEq] at h
          have h1 : depFile = resolveImportPath dep.source file :=
            (congrArg Prod.fst h).symm
          have h2 : func = fnd := (congrArg Prod.snd h).symm
          subst h1
          subst h2
          refine ⟨depAnalysis, hl, List.mem_of_find?_eq_some hf, ?_⟩
          have hpf := List.find?_some hf
          simpa using hpf
        | none =>
          rw [findDepLoop_cons_notfound hex' hl hf] at h
          exact findDepLoop_sound fa call file rest depFile func h

theorem findFunctionInImports_none {call file : String}
    {fa : List (String × Analysis)} (hlf : lookupA fa file = none) :
    findFunctionInImports call file fa = none := by
  simp [findFunctionInImports, hlf]

theorem findFunctionInImports_some {call file : String}
    {fa : List (String × Analysis)} {analysis : Analysis}
    (hlf : lookupA fa file = some analysis) :
    findFunctionInImports call file fa =
      findDepLoop call file fa analysis.dependencies := by
  simp [findFunctionInImports, hlf]

theorem processOneCall_spec {fa : List (String × Analysis)}
    (hnodup : (fa.map Prod.fst).Nodup)
    (hnames : ∀ p ∈ fa, ∀ fn ∈ p.2.functions, ':' ∉ fn.name.data)
    (hext : ∀ p ∈ fa, ∀ dep ∈ p.2.dependencies,
      dep.isExternal = !(startsWithDot dep.source))
    (file : String) (fn : FunctionInfo) (callerKey : String) {call : String}
    (hcall : ':' ∉ call.data) {g : List (String × CallGraphNode)}
    (hkeys : g.map Prod.fst = (pass1 fa).map Prod.fst) :
    processOneCall g file fn callerKey call fa =
      match specResolveCallee fa file call with
      | some ck => addEdge g callerKey ck file fn.line
      | none => g := by
  simp only [processOneCall, specResolveCallee]
  by_cases hany : ((functionsOf fa file).any fun f => f.name = call) = true
  · have hsome := (keyLookup_any_iff hnodup hnames hcall file hkeys).mpr hany
    obtain ⟨node, hnode⟩ := Option.isSome_iff_exists.mp hsome
    rw [if_pos hany]
    simp only [hnode]
  · have hnone : lookupA g (file ++ ":" ++ call) = none := by
      cases h : lookupA g (file ++ ":" ++ call) with
      | none => rfl
      | some nd =>
        exfalso
        apply hany
        rw [← keyLookup_any_iff hnodup hnames hcall file hkeys, h]
        rfl
    rw [if_neg hany]
    simp only [hnone]
    cases hlf : lookupA fa file with
    | none =>
      have hd : dependenciesOf fa file = [] := by
        unfold dependenciesOf
        rw [hlf]
      rw [findFunctionInImports_none hlf, hd]
      rfl
    | some analysis =>
      have hd : dependenciesOf fa file = analysis.dependencies := by
        unfold dependenciesOf
        rw [hlf]
      rw [findFunctionInImports_some hlf, hd]
      have hextd : ∀ dep ∈ analysis.dependencies,
          dep.isExternal = !(startsWithDot dep.source) :=
        fun dep hdp => hext (file, analysis) (lookupA_eq_some_mem hlf) dep hdp
      have hspec := findDepLoop_spec fa call file analysis.dependencies hextd
      cases hfd : findDepLoop call file fa analysis.dependencies with
      | none =>
        have hs2 : specDepSearch fa call file analysis.dependencies = none := by
          rw [← hspec, hfd]
          rfl
        rw [hs2]
      | some imported =>
        have hs2 : specDepSearch fa call file analysis.dependencies =
            some (imported.1 ++ ":" ++ call) := by
          rw [← hspec, hfd]
          rfl
        rw [hs2]
        obtain ⟨a, hla, hfm, hfn⟩ :=
          findDepLoop_sound fa call file analysis.dependencies imported.1 imported.2
            (by rw [← hfd])
        have hsome2 : (lookupA g (imported.1 ++ ":" ++ call)).isSome = true := by
          rw [lookupA_isSome_iff, hkeys, pass1_mem]
          exact ⟨(imported.1, a), lookupA_eq_some_mem hla, imported.2, hfm, by rw [hfn]⟩
        obtain ⟨nd, hnd⟩ := Option.isSome_iff_exists.mp hsome2
        simp only [hnd]

theorem specStep_keys (fa : List (String × Analysis)) (file callerKey : String)
    (line : Nat) (g : List (String × CallGraphNode)) (call : String) :
    (match specResolveCallee fa file call with
      | some ck => addEdge g callerKey ck file line
      | none => g).map Prod.fst = g.map Prod.fst := by
  cases specResolveCallee fa file call with
  | some ck => exact addEdge_keys g callerKey ck file line
  | none => rfl

theorem callsFold_spec {fa : List (String × Analysis)}
    (hnodup : (fa.map Prod.fst).Nodup)
    (hnames : ∀ p ∈ fa, ∀ fn ∈ p.2.functions, ':' ∉ fn.name.data)
    (hext : ∀ p ∈ fa, ∀ dep ∈ p.2.dependencies,
      dep.isExternal = !(startsWithDot dep.source))
    (file : String) (fn : FunctionInfo) (callerKey : String) :
    ∀ (calls : List String) (g : List (String × CallGraphNode)),
      (∀ c ∈ calls, ':' ∉ c.data) →
      g.map Prod.fst = (pass1 fa).map Prod.fst →
      calls.foldl (fun g call => processOneCall g file fn callerKey call fa) g =
        calls.foldl (fun g call =>
          match specResolveCallee fa file call with
          | some ck => addEdge g callerKey ck file fn.line
          | none => g) g
  | [], g, _, _ => rfl
  | call :: calls, g, hc, hkeys => by
    simp only [List.foldl_cons]
    rw [processOneCall_spec hnodup hnames hext file fn callerKey
      (hc call (List.mem_cons_self _ _)) hkeys]
    exact callsFold_spec hnodup hnames hext file fn callerKey calls _
      (fun c hm => hc c (List.mem_cons_of_mem _ hm))
      ((specStep_keys fa file callerKey fn.line g call).trans hkeys)

theorem pass2Fn_spec {fa : List (String × Analysis)}
    (hnodup : (fa.map Prod.fst).Nodup)
    (hnames : ∀ p ∈ fa, ∀ fn ∈ p.2.functions, ':' ∉ fn.name.data)
    (hcalls : ∀ p ∈ fa, ∀ fn ∈ p.2.functions, ∀ c ∈ fn.calls, ':' ∉ c.data)
    (hext : ∀ p ∈ fa, ∀ dep ∈ p.2.dependencies,
      dep.isExternal = !(startsWithDot dep.source))
    {file : String} {fn : FunctionInfo}
    (hfa : ∃ a, (file, a) ∈ fa ∧ fn ∈ a.functions)
    {g : List (String × CallGraphNode)}
    (hkeys : g.map Prod.fst = (pass1 fa).map Prod.fst) :
    pass2Fn fa file g fn =
      fn.calls.foldl (fun g call =>
        match specResolveCallee fa file call with
        | some ck => addEdge g (file ++ ":" ++ fn.name) ck file fn.line
        | none => g) g := by
  obtain ⟨a, hpa, hfn⟩ := hfa
  have hkey : (lookupA g (file ++ ":" ++ fn.name)).isSome = true := by
    rw [lookupA_isSome_iff, hkeys, pass1_mem]
    exact ⟨(file, a), hpa, fn, hfn, rfl⟩
  obtain ⟨nd, hnd⟩ := Option.isSome_iff_exists.mp hkey
  simp only [pass2Fn]
  simp only [hnd]
  exact callsFold_spec hnodup hnames hext file fn (file ++ ":" ++ fn.name)
    fn.calls g (fun c hm => hcalls (file, a) hpa fn hfn c hm) hkeys

theorem specCallsFold_keys (fa : List (String × Analysis)) (file callerKey : String)
    (line : Nat) :
    ∀ (calls : List String) (g : List (String × CallGraphNode)),
      (calls.foldl (fun g call =>
        match specResolveCallee fa file call with
        | some ck => addEdge g callerKey ck file line
        | none => g) g).map Prod.fst = g.map Prod.fst
  | [], _ => rfl
  | call :: calls, g => by
    simp only [List.foldl_cons]
    exact (specCallsFold_keys fa file callerKey line calls _).trans
      (specStep_keys fa file callerKey line g call)

theorem specFnsFold_keys (fa : List (String × Analysis)) (file : String) :
    ∀ (fns : List FunctionInfo) (g : List (String × CallGraphNode)),
      (fns.foldl (fun g fn => fn.calls.foldl (fun g call =>
        match specResolveCallee fa file call with
        | some ck => addEdge g (file ++ ":" ++ fn.name) ck file fn.line
        | none => g) g) g).map Prod.fst = g.map Prod.fst
  | [], _ => rfl
  | fn :: fns, g => by
    simp only [List.foldl_cons]
    exact (specFnsFold_keys fa file fns _).trans
      (specCallsFold_keys fa file (file ++ ":" ++ fn.name) fn.line fn.calls g)

theorem fnsFold_spec {fa : List (String × Analysis)}
    (hnodup : (fa.map Prod.fst).Nodup)
    (hnames : ∀ p ∈ fa, ∀ fn ∈ p.2.functions, ':' ∉ fn.name.data)
    (hcalls : ∀ p ∈ fa, ∀ fn ∈ p.2.functions, ∀ c ∈ fn.calls, ':' ∉ c.data)
    (hext : ∀ p ∈ fa, ∀ dep ∈ p.2.dependencies,
      dep.isExternal = !(startsWithDot dep.source))
    (file : String) :
    ∀ (fns : List FunctionInfo) (g : List (String × CallGraphNode)),
      (∀ fn ∈ fns, ∃ a, (file, a) ∈ fa ∧ fn ∈ a.functions) →
      g.map Prod.fst = (pass1 fa).map Prod.fst →
      fns.foldl (fun g fn => pass2Fn fa file g fn) g =
        fns.foldl (fun g fn => fn.calls.foldl (fun g call =>
          match specResolveCallee fa file call with
          | some ck => addEdge g (file ++ ":" ++ fn.name) ck file fn.line
          | none => g) g) g
  | [], _, _, _ => rfl
  | fn :: fns, g, hfns, hkeys => by
    simp only [List.foldl_cons]
    rw [pass2Fn_spec hnodup hnames hcalls hext (hfns fn (List.mem_cons_self _ _)) hkeys]
    exact fnsFold_spec hnodup hnames hcalls hext file fns _
      (fun f hm => hfns f (List.mem_cons_of_mem _ hm))
      ((specCallsFold_keys fa file (file ++ ":" ++ fn.name) fn.line fn.calls g).trans
        hkeys)

theorem outerFold_spec {fa : List (String × Analysis)}
    (hnodup : (fa.map Prod.fst).Nodup)
    (hnames : ∀ p ∈ fa, ∀ fn ∈ p.2.functions, ':' ∉ fn.name.data)
    (hcalls : ∀ p ∈ fa, ∀ fn ∈ p.2.functions, ∀ c ∈ fn.calls, ':' ∉ c.data)
    (hext : ∀ p ∈ fa, ∀ dep ∈ p.2.dependencies,
      dep.isExternal = !(startsWithDot dep.source)) :
    ∀ (l : List (String × Analysis)) (g : List (String × CallGraphNode)),
      (∀ p ∈ l, p ∈ fa) →
      g.map Prod.fst = (pass1 fa).map Prod.fst →
      l.foldl (fun g p => p.2.functions.foldl (fun g fn => pass2Fn fa p.1 g fn) g) g =
        l.foldl (fun g p => p.2.functions.foldl
          (fun g fn => fn.calls.foldl (fun g call =>
            match specResolveCallee fa p.1 call with
            | some calleeKey => addEdge g (p.1 ++ ":" ++ fn.name) calleeKey p.1 fn.line
            | none => g) g) g) g
  | [], _, _, _ => rfl
  | p :: l, g, hl, hkeys => by
    simp only [List.foldl_cons]
    rw [fnsFold_spec hnodup hnames hcalls hext p.1 p.2.functions g
      (fun fn hm => ⟨p.2, hl p (List.mem_cons_self _ _), hm⟩) hkeys]
    exact outerFold_spec hnodup hnames hcalls hext l _
      (fun q hm => hl q (List.mem_cons_of_mem _ hm))
      ((specFnsFold_keys fa p.1 p.2.functions g).trans hkeys)

/-- Claim C6 — confirmed (for well-formed analysis maps).  Pass 2 of
`buildCallGraph` implements, call by call, exactly the resolution
policy of the claim: first an exact-name match in the caller's own
file, then each internal (relative-specifier) dependency in
declaration order, resolved by `.`/`..` segment resolution against the
caller's directory with no extension probing and no index-file
fallback, searching that file's functions by name; the first match
wins and appends one edge to both the caller's callee list and the
callee's caller list, and an unresolved call changes nothing and
raises nothing.  The hypotheses state that the fact map is shaped as
the extractor produces it: map keys are unique, function and call
names carry no `:` (the key separator), and `isExternal` agrees with
the relative-specifier test. -/
theorem buildCallGraph_resolution (fa : List (String × Analysis))
    (hnodup : (fa.map Prod.fst).Nodup)
    (hnames : ∀ p ∈ fa, ∀ fn ∈ p.2.functions, ':' ∉ fn.name.data)
    (hcalls : ∀ p ∈ fa, ∀ fn ∈ p.2.functions, ∀ c ∈ fn.calls, ':' ∉ c.data)
    (hext : ∀ p ∈ fa, ∀ dep ∈ p.2.dependencies,
      dep.isExternal = !(startsWithDot dep.source)) :
    buildCallGraph fa = specBuild fa := by
  unfold buildCallGraph specBuild
  exact outerFold_spec hnodup hnames hcalls hext fa (pass1 fa) (fun p hp => hp) rfl

/-- Claim C6 witness input: two files, a cross-file call `f -> g`
through the internal dependency `./b.ts`. -/
def demoFa : List (String × Analysis) :=
  [("src/a.ts", ⟨[⟨"f", 1, 0, [], none, false, true, 1, ["g"]⟩],
      [⟨"import", "./b.ts", ["g"], 1, false⟩]⟩),
   ("src/b.ts", ⟨[⟨"g", 1, 0, [], none, false, true, 1, []⟩], []⟩)]

/-- Claim C6 witness: the equality at a concrete well-formed map. -/
theorem buildCallGraph_resolution_witness : buildCallGraph demoFa = specBuild demoFa :=
  buildCallGraph_resolution demoFa (by decide) (by decide) (by decide) (by decide)

/-! ## The AST analyzer (`src/analysis/ast-parser.ts`)

The external parsers return ESTree-style objects that the analyzer
walks by reflection over their properties, skipping `parent`, `loc` and
`range`.  The object shape is modelled as a rose tree: every node
carries its `type`, its `operator` (empty when absent), its string
`name` and `value` properties (empty when absent), its location line
and column, its `async` flag, and its remaining object-valued
properties in insertion order; a property holding a single node is a
one-element list. -/

mutual
inductive JsNode : Type where
  | mk (ntype op sname sval : String) (nline ncol : Nat) (asyncFlag : Bool)
      (fields : JsFields) : JsNode
inductive JsFields : Type where
  | nil : JsFields
  | cons (key : String) (vals : JsList) (rest : JsFields) : JsFields
inductive JsList : Type where
  | nil : JsList
  | cons (head : JsNode) (tail : JsList) : JsList
end

def JsNode.ntype : JsNode → String
  | .mk t _ _ _ _ _ _ _ => t

def JsNode.op : JsNode → String
  | .mk _ o _ _ _ _ _ _ => o

def JsNode.sname : JsNode → String
  | .mk _ _ n _ _ _ _ _ => n

def JsNode.sval : JsNode → String
  | .mk _ _ _ v _ _ _ _ => v

def JsNode.nline : JsNode → Nat
  | .mk _ _ _ _ l _ _ _ => l

def JsNode.ncol : JsNode → Nat
  | .mk _ _ _ _ _ c _ _ => c

def JsNode.asyncFlag : JsNode → Bool
  | .mk _ _ _ _ _ _ a _ => a

def JsNode.fields : JsNode → JsFields
  | .mk _ _ _ _ _ _ _ fs => fs

/-- The values of the first property with the given key. -/
def JsFields.getF : JsFields → String → Option JsList
  | .nil, _ => none
  | .cons k vs rest, key => if k = key then some vs else rest.getF key

def JsList.toNodes : JsList → List JsNode
  | .nil => []
  | .cons h t => h :: t.toNodes

/-- A node-valued property (`node.id`, `node.key`, …): the first value
of the property, when present. -/
def getFieldNode (n : JsNode) (k : String) : Option JsNode :=
  match n.fields.getF k with
  | some (.cons h _) => some h
  | _ => none

/-- An array-valued property (`node.params`, `node.arguments`, …). -/
def getFieldList (n : JsNode) (k : String) : List JsNode :=
  match n.fields.getF k with
  | some vs => vs.toNodes
  | none => []

/-! Node sizes, used as fuel bounds for the field-chasing recursions
(`getParamName`, `getCalleeName`), whose recursion depth they
dominate. -/
mutual
def sizeN : JsNode → Nat
  | .mk _ _ _ _ _ _ _ fs => 1 + sizeF fs
def sizeF : JsFields → Nat
  | .nil => 0
  | .cons _ vs rest => sizeL vs + sizeF rest
def sizeL : JsList → Nat
  | .nil => 0
  | .cons h t => sizeN h + sizeL t
end

/-- `getParamName` with explicit fuel (the source recurses through the
`left` / `argument` fields; `sizeN` bounds the chain length). -/
def getParamNameFuel : Nat → JsNode → String
  | 0, _ => "<complex>"
  | fuel + 1, p =>
    if p.ntype = "Identifier" then p.sname
    else if p.ntype = "AssignmentPattern" then
      match getFieldNode p "left" with
      | some l => getParamNameFuel fuel l
      | none => "<complex>"
    else if p.ntype = "RestElement" then
      match getFieldNode p "argument" with
      | some a => "..." ++ getParamNameFuel fuel a
      | none => "<complex>"
    else "<complex>"

/-- `getParamName` from `src/analysis/ast-parser.ts`. -/
def getParamName (p : JsNode) : String := getParamNameFuel (sizeN p) p

/-- `getCalleeName` with explicit fuel (recursion through the `object`
field of member expressions). -/
def getCalleeNameFuel : Nat → JsNode → String
  | 0, _ => ""
  | fuel + 1, callee =>
    if callee.ntype = "Identifier" then callee.sname
    else if callee.ntype = "MemberExpression" then
      match getFieldNode callee "object" with
      | some obj =>
        let objName := getCalleeNameFuel fuel obj
        let property :=
          match getFieldNode callee "property" with
          | some pr => if pr.sname ≠ "" then pr.sname else pr.sval
          | none => ""
        objName ++ "." ++ property
      | none => ""
    else ""

/-- `getCalleeName` from `src/analysis/ast-parser.ts`: member calls
flatten to `object.method`. -/
def getCalleeName (callee : JsNode) : String := getCalleeNameFuel (sizeN callee) callee

/-- The decision-point test of `calculateComplexity`: the listed node
types, with logical expressions restricted to the operators `&&` and
`||`. -/
def isDecisionNode (n : JsNode) : Bool :=
  (["IfStatement", "ConditionalExpression", "SwitchCase", "ForStatement",
    "ForInStatement", "ForOfStatement", "WhileStatement", "DoWhileStatement",
    "CatchClause", "LogicalExpression"].contains n.ntype) &&
  (n.ntype ≠ "LogicalExpression" || n.op = "&&" || n.op = "||")

/-! The decision-point counter of `calculateComplexity`, one counter
per syntactic class of the rose tree.  The traversal enters every
object-valued property — including the bodies of nested functions. -/
mutual
def decCountN : JsNode → Nat
  | .mk t o sn sv l c a fs =>
    (if isDecisionNode (.mk t o sn sv l c a fs) then 1 else 0) + decCountF fs
def decCountF : JsFields → Nat
  | .nil => 0
  | .cons _ vs rest => decCountL vs + decCountF rest
def decCountL : JsList → Nat
  | .nil => 0
  | .cons h t => decCountN h + decCountL t
end

/-- `calculateComplexity` from `src/analysis/ast-parser.ts`: 1 plus the
number of decision points in the whole subtree of the node. -/
def calculateComplexity (n : JsNode) : Nat := 1 + decCountN n

/-! All nodes of a subtree in visit order (specification side). -/
mutual
def subtreeN : JsNode → List JsNode
  | .mk t o sn sv l c a fs => .mk t o sn sv l c a fs :: subtreeF fs
def subtreeF : JsFields → List JsNode
  | .nil => []
  | .cons _ vs rest => subtreeL vs ++ subtreeF rest
def subtreeL : JsList → List JsNode
  | .nil => []
  | .cons h t => subtreeN h ++ subtreeL t
end

/-- The number of decision-point nodes anywhere in a node's subtree,
written as a filter over the flattened subtree (specification side). -/
def specDecisionCount (n : JsNode) : Nat :=
  ((subtreeN n).filter fun m => isDecisionNode m).length

/-! The raw call-name collector of `extractFunctionCalls`. -/
mutual
def callsN : JsNode → List String
  | .mk t o sn sv l c a fs =>
    (if t = "CallExpression" then
        match getFieldNode (.mk t o sn sv l c a fs) "callee" with
        | some callee =>
          let calleeName := getCalleeName callee
          if calleeName ≠ "" then [calleeName] else []
        | none => []
      else []) ++ callsF fs
def callsF : JsFields → List String
  | .nil => []
  | .cons _ vs rest => callsL vs ++ callsF rest
def callsL : JsList → List String
  | .nil => []
  | .cons h t => callsN h ++ callsL t
end

/-- `[...new Set(xs)]`: duplicates removed keeping first occurrences. -/
def dedupFirstGo (seen : List String) : List String → List String
  | [] => []
  | x :: xs =>
    if x ∈ seen then dedupFirstGo seen xs
    else x :: dedupFirstGo (seen ++ [x]) xs

/-- `extractFunctionCalls` from `src/analysis/ast-parser.ts`. -/
def extractFunctionCalls (n : JsNode) : List String :=
  dedupFirstGo [] (callsN n)

/-- `isExported` from `src/analysis/ast-parser.ts`. -/
def isExportedChk (parent : Option JsNode) : Bool :=
  match parent with
  | none => false
  | some p =>
    p.ntype = "ExportNamedDeclaration" || p.ntype = "ExportDefaultDeclaration"

/-- The `returnType?.typeAnnotation?.type` chain. -/
def returnTypeOf (n : JsNode) : Option String :=
  ((getFieldNode n "returnType").bind fun rt => getFieldNode rt "typeAnnotation").map
    (·.ntype)

/-- A placeholder for the `value` property of a malformed
`MethodDefinition` (real ASTs always carry one). -/
def emptyJsNode : JsNode := .mk "" "" "" "" 0 0 false .nil

/-- The guard of the function-declaration push of `extractFunctions`. -/
def p1Cond (n : JsNode) : Bool :=
  n.ntype = "FunctionDeclaration" && (getFieldNode n "id").isSome

/-- The guard of the variable-bound arrow/function-expression push. -/
def p2Cond (n : JsNode) (parent : Option JsNode) : Bool :=
  (n.ntype = "ArrowFunctionExpression" || n.ntype = "FunctionExpression") &&
  (match parent with
   | some p => p.ntype = "VariableDeclarator" && (getFieldNode p "id").isSome
   | none => false)

/-- The guard of the class-method push. -/
def p3Cond (n : JsNode) : Bool :=
  n.ntype = "MethodDefinition" && (getFieldNode n "key").isSome

/-- The record pushed for a function declaration. -/
def fnInfoP1 (n : JsNode) (parent : Option JsNode) : FunctionInfo :=
  { name := (((getFieldNode n "id").map (·.sname)).getD ""),
    line := n.nline, column := n.ncol,
    params := (getFieldList n "params").map getParamName,
    returnType := returnTypeOf n,
    isAsync := n.asyncFlag,
    isExported := isExportedChk parent,
    complexity := calculateComplexity n,
    calls := extractFunctionCalls n }

/-- The record pushed for a variable-bound arrow/function expression
(the source passes `null` as the grandparent to `isExported`, so the
flag is always `false` here). -/
def fnInfoP2 (n : JsNode) (parent : Option JsNode) : FunctionInfo :=
  { name := (((parent.bind fun p => getFieldNode p "id").map (·.sname)).getD ""),
    line := n.nline, column := n.ncol,
    params := (getFieldList n "params").map getParamName,
    returnType := returnTypeOf n,
    isAsync := n.asyncFlag,
    isExported := false,
    complexity := calculateComplexity n,
    calls := extractFunctionCalls n }

/-- The record pushed for a class method: name from the method key,
everything else from the `value` function node, never exported. -/
def fnInfoP3 (n : JsNode) : FunctionInfo :=
  let value := (getFieldNode n "value").getD emptyJsNode
  let key := (getFieldNode n "key").getD emptyJsNode
  { name := if key.sname ≠ "" then key.sname else key.sval,
    line := n.nline, column := n.ncol,
    params := (getFieldList value "params").map getParamName,
    returnType := returnTypeOf value,
    isAsync := value.asyncFlag,
    isExported := false,
    complexity := calculateComplexity value,
    calls := extractFunctionCalls value }

/-- The records pushed when visiting one node. -/
def nodePushes (n : JsNode) (parent : Option JsNode) : List FunctionInfo :=
  (if p1Cond n then [fnInfoP1 n parent] else []) ++
  (if p2Cond n parent then [fnInfoP2 n parent] else []) ++
  (if p3Cond n then [fnInfoP3 n] else [])

/-- Specification side: the node whose subtree each pushed record's
complexity is computed over (the function node itself; for methods,
the `value` function node). -/
def targetPushes (n : JsNode) (parent : Option JsNode) : List JsNode :=
  (if p1Cond n then [n] else []) ++
  (if p2Cond n parent then [n] else []) ++
  (if p3Cond n then [(getFieldNode n "value").getD emptyJsNode] else [])

/-! The visitor of `extractFunctions`: records pushed before the
children are visited; the parent passed to children is the current
node. -/
mutual
def extractN : JsNode → Option JsNode → List FunctionInfo
  | .mk t o sn sv l c a fs, parent =>
    nodePushes (.mk t o sn sv l c a fs) parent ++ extractF fs (.mk t o sn sv l c a fs)
def extractF : JsFields → JsNode → List FunctionInfo
  | .nil, _ => []
  | .cons _ vs rest, par => extractL vs par ++ extractF rest par
def extractL : JsList → JsNode → List FunctionInfo
  | .nil, _ => []
  | .cons h t, par => extractN h (some par) ++ extractL t par
end

/-- `extractFunctions` from `src/analysis/ast-parser.ts`. -/
def extractFunctions (ast : JsNode) : List FunctionInfo := extractN ast none

/-! The same visitor emitting, in the same order, the node whose
subtree each record's complexity is counted over. -/
mutual
def targetsN : JsNode → Option JsNode → List JsNode
  | .mk t o sn sv l c a fs, parent =>
    targetPushes (.mk t o sn sv l c a fs) parent ++ targetsF fs (.mk t o sn sv l c a fs)
def targetsF : JsFields → JsNode → List JsNode
  | .nil, _ => []
  | .cons _ vs rest, par => targetsL vs par ++ targetsF rest par
def targetsL : JsList → JsNode → List JsNode
  | .nil, _ => []
  | .cons h t, par => targetsN h (some par) ++ targetsL t par
end

/-- The node kinds whose bodies the claim calls nested function
bodies. -/
def isFunctionKind (t : String) : Bool :=
  ["FunctionDeclaration", "FunctionExpression", "ArrowFunctionExpression",
   "MethodDefinition"].contains t

/-! Modelled from the spec: the scoped decision count of claim C2 —
decision points strictly within a function's own body, with nested
function bodies excluded. -/
mutual
def scopedN : JsNode → Nat
  | .mk t o sn sv l c a fs =>
    if isFunctionKind t then 0
    else (if isDecisionNode (.mk t o sn sv l c a fs) then 1 else 0) + scopedF fs
def scopedF : JsFields → Nat
  | .nil => 0
  | .cons _ vs rest => scopedL vs + scopedF rest
def scopedL : JsList → Nat
  | .nil => 0
  | .cons h t => scopedN h + scopedL t
end

/-- Modelled from the spec: the complexity claim C2 asserts — 1 plus
the decision points of the function's own body only. -/
def specScopedComplexity (n : JsNode) : Nat := 1 + scopedF n.fields

/-! ### The counting relation between the imperative counter and the
flattened-subtree count -/

mutual
theorem decCountN_eq : ∀ n : JsNode,
    decCountN n = ((subtreeN n).filter fun m => isDecisionNode m).length
  | .mk t o sn sv l c a fs => by
    simp only [decCountN, subtreeN, List.filter_cons]
    rw [decCountF_eq fs]
    by_cases h : isDecisionNode (.mk t o sn sv l c a fs) = true
    · simp [h, Nat.add_comm]
    · simp [h]
theorem decCountF_eq : ∀ fs : JsFields,
    decCountF fs = ((subtreeF fs).filter fun m => isDecisionNode m).length
  | .nil => rfl
  | .cons k vs rest => by
    simp only [decCountF, subtreeF, List.filter_append, List.length_append]
    rw [decCountL_eq vs, decCountF_eq rest]
theorem decCountL_eq : ∀ vs : JsList,
    decCountL vs = ((subtreeL vs).filter fun m => isDecisionNode m).length
  | .nil => rfl
  | .cons h t => by
    simp only [decCountL, subtreeL, List.filter_append, List.length_append]
    rw [decCountN_eq h, decCountL_eq t]
end

theorem calculateComplexity_eq (n : JsNode) :
    calculateComplexity n = 1 + specDecisionCount n := by
  rw [calculateComplexity, specDecisionCount, decCountN_eq]

theorem nodePushes_complexity (n : JsNode) (parent : Option JsNode) :
    (nodePushes n parent).map (·.complexity) =
      (targetPushes n parent).map fun m => 1 + specDecisionCount m := by
  unfold nodePushes targetPushes
  by_cases h1 : p1Cond n <;> by_cases h2 : p2Cond n parent <;> by_cases h3 : p3Cond n <;>
    simp [h1, h2, h3, fnInfoP1, fnInfoP2, fnInfoP3, calculateComplexity_eq]

mutual
theorem extractN_complexity : ∀ (n : JsNode) (parent : Option JsNode),
    (extractN n parent).map (·.complexity) =
      (targetsN n parent).map fun m => 1 + specDecisionCount m
  | .mk t o sn sv l c a fs, parent => by
    simp only [extractN, targetsN, List.map_append]
    rw [nodePushes_complexity, extractF_complexity fs]
theorem extractF_complexity : ∀ (fs : JsFields) (par : JsNode),
    (extractF fs par).map (·.complexity) =
      (targetsF fs par).map fun m => 1 + specDecisionCount m
  | .nil, _ => rfl
  | .cons k vs rest, par => by
    simp only [extractF, targetsF, List.map_append]
    rw [extractL_complexity vs, extractF_complexity rest]
theorem extractL_complexity : ∀ (vs : JsList) (par : JsNode),
    (extractL vs par).map (·.complexity) =
      (targetsL vs par).map fun m => 1 + specDecisionCount m
  | .nil, _ => rfl
  | .cons h t, par => by
    simp only [extractL, targetsL, List.map_append]
    rw [extractN_complexity h, extractL_complexity t]
end

/-- Claim C2 — amended.  For every parsed tree, the complexities
reported by `extractFunctions` are, function by function in extraction
order, `1` plus the number of decision-point nodes (`if` statements,
conditional expressions, `switch` cases, loops, `catch` clauses, and
logical expressions with operator `&&` or `||`) in the ENTIRE subtree
of that function's node (the method `value` node for class methods) —
including, contrary to the original claim, the decision points inside
nested function bodies, which the traversal of `calculateComplexity`
does not exclude. -/
theorem extractFunctions_complexity (ast : JsNode) :
    (extractFunctions ast).map (·.complexity) =
      (targetsN ast none).map fun m => 1 + specDecisionCount m :=
  extractN_complexity ast none

/-- Claim C2 — counterexample AST: `function f() { function g() { if
(x) {} } }`. -/
def cInnerFn : JsNode :=
  .mk "FunctionDeclaration" "" "" "" 2 0 false
    (.cons "id" (.cons (.mk "Identifier" "" "g" "" 2 0 false .nil) .nil)
      (.cons "params" .nil
        (.cons "body" (.cons (.mk "BlockStatement" "" "" "" 2 0 false
          (.cons "body" (.cons (.mk "IfStatement" "" "" "" 3 0 false .nil) .nil) .nil))
          .nil) .nil)))

/-- The outer function of the counterexample. -/
def cOuterFn : JsNode :=
  .mk "FunctionDeclaration" "" "" "" 1 0 false
    (.cons "id" (.cons (.mk "Identifier" "" "f" "" 1 0 false .nil) .nil)
      (.cons "params" .nil
        (.cons "body" (.cons (.mk "BlockStatement" "" "" "" 1 0 false
          (.cons "body" (.cons cInnerFn .nil) .nil)) .nil) .nil)))

/-- The program of the counterexample. -/
def cProgram : JsNode :=
  .mk "Program" "" "" "" 1 0 false (.cons "body" (.cons cOuterFn .nil) .nil)

/-- Claim C2 — counterexample.  The extractor reports complexity 2 for
the outer function `f` (the `if` inside the nested `g` is counted),
while the claim's scoping — decision points strictly within the
function's own body, nested function bodies excluded — demands 1: the
reported values `[2, 2]` differ from the claimed `[1, 2]`. -/
theorem extractFunctions_counts_nested_bodies :
    (extractFunctions cProgram).map (·.complexity) = [2, 2] ∧
      specScopedComplexity cOuterFn = 1 ∧
      specScopedComplexity cInnerFn = 2 ∧
      (extractFunctions cProgram).map (·.complexity) ≠
        [specScopedComplexity cOuterFn, specScopedComplexity cInnerFn] := by
  refine ⟨by decide, by decide, by decide, by decide⟩

/-! ## `parseFile` and the code metrics (`src/analysis/ast-parser.ts`) -/

/-- The `langMap` table of `detectLanguage`. -/
def langMap : List (String × String) :=
  [("ts", "typescript"), ("tsx", "tsx"), ("js", "javascript"),
   ("jsx", "jsx"), ("mjs", "javascript"), ("cjs", "javascript"),
   ("py", "python"), ("rb", "ruby"), ("go", "go"), ("rs", "rust"),
   ("java", "java"), ("cpp", "cpp"), ("c", "c"), ("cs", "csharp"),
   ("php", "php")]

/-- `detectLanguage`: lowercased last dot-separated component of the
filename, looked up in `langMap`, defaulting to `unknown`. -/
def detectLanguage (filename : String) : String :=
  let ext := String.mk (((splitOnChar '.' filename.data).getLastD []).map Char.toLower)
  (lookupA langMap ext).getD "unknown"

/-- `CodeMetrics` from `src/types/index.ts`; the three rounded numbers
are kept as exact rationals. -/
structure CodeMetrics where
  linesOfCode : Nat
  complexity : ℚ
  maintainabilityIndex : ℚ
  commentRatio : ℚ
  functionCount : Nat
  classCount : Nat
deriving DecidableEq, Repr

/-- `Math.round`: half-up rounding, also for negative arguments. -/
def jsRound (q : ℚ) : ℤ := ⌊q + 1 / 2⌋

/-- `getBasicMetrics`: non-blank line count, every other field zero. -/
def getBasicMetrics (content : String) : CodeMetrics :=
  { linesOfCode :=
      ((splitOnChar '\n' content.data).filter fun l => !(jsTrim l).isEmpty).length,
    complexity := 0, maintainabilityIndex := 0, commentRatio := 0,
    functionCount := 0, classCount := 0 }

/-- The `\w` character class of the `countClasses` regex. -/
def isWordChar (c : Char) : Bool := c.isAlpha || c.isDigit || c = '_'

/-- The `\s` character class (ASCII part). -/
def isSpaceChar (c : Char) : Bool :=
  c = ' ' || c = '\t' || c = '\n' || c = '\r' ||
  c = Char.ofNat 11 || c = Char.ofNat 12

/-- The global scan of the regex of `countClasses`: at a position with
a word boundary, match the literal `class`, then one or more spaces,
then one or more word characters; a match is consumed, a failed
attempt advances one character.  `prevWord` records whether the
previous character is a word character. -/
def countClassesGo : Nat → Bool → List Char → Nat
  | 0, _, _ => 0
  | _ + 1, _, [] => 0
  | fuel + 1, prevWord, c :: rest =>
    if !prevWord && "class".data.isPrefixOf (c :: rest) then
      let after := (c :: rest).drop 5
      let ws := after.takeWhile isSpaceChar
      let rest2 := after.dropWhile isSpaceChar
      let w := rest2.takeWhile isWordChar
      let rest3 := rest2.dropWhile isWordChar
      if !ws.isEmpty && !w.isEmpty then 1 + countClassesGo fuel true rest3
      else countClassesGo fuel (isWordChar c) rest
    else countClassesGo fuel (isWordChar c) rest

/-- `countClasses`: matches of the class-declaration regex. -/
def countClasses (content : String) : Nat :=
  countClassesGo content.data.length false content.data

/-- The external `Math.log` and the two third-party parsers, passed as
an environment: a parser maps the text and the JSX flag to an AST or a
thrown error message. -/
structure JsEnv where
  parseTS : String → Bool → Except String JsNode
  parseJS : String → Bool → Except String JsNode
  log : Nat → ℚ

/-- `calculateMetrics`: line classes by trimmed prefix, average
complexity over the extracted functions, the log-based
maintainability estimate clamped to `[0, 100]`. -/
def calculateMetrics (env : JsEnv) (content : String) (functions : List FunctionInfo) :
    CodeMetrics :=
  let lines := splitOnChar '\n' content.data
  let codeLines := lines.filter fun line =>
    !(jsTrim line).isEmpty && !("//".data.isPrefixOf (jsTrim line)) &&
    !("/*".data.isPrefixOf (jsTrim line))
  let commentLines := lines.filter fun line =>
    "//".data.isPrefixOf (jsTrim line) || "/*".data.isPrefixOf (jsTrim line) ||
    "*".data.isPrefixOf (jsTrim line)
  let avgComplexity : ℚ :=
    if functions.length > 0 then
      ((functions.map fun f => (f.complexity : ℚ)).sum) / (functions.length : ℚ)
    else 0
  let maintainabilityIndex : ℚ :=
    max 0 (min 100 (171 - (52 / 10) * env.log lines.length - (23 / 100) * avgComplexity))
  { linesOfCode := codeLines.length,
    complexity := (jsRound (avgComplexity * 10) : ℚ) / 10,
    maintainabilityIndex := (jsRound maintainabilityIndex : ℚ),
    commentRatio := (jsRound ((commentLines.length : ℚ) / (lines.length : ℚ) * 100) : ℚ) / 100,
    functionCount := functions.length,
    classCount := countClasses content }

/-- The specifier name of one entry of `node.specifiers`:
`s.local?.name || s.imported?.name || 'default'`. -/
def specName (s : JsNode) : String :=
  let ln := ((getFieldNode s "local").map (·.sname)).getD ""
  if ln ≠ "" then ln
  else
    let im := ((getFieldNode s "imported").map (·.sname)).getD ""
    if im ≠ "" then im else "default"

/-- The dependency records pushed when `extractDependencies` visits
one node (the three `if`s of the source, in order). -/
def depPushes (n : JsNode) : List DependencyInfo :=
  (if n.ntype = "ImportDeclaration" then
    [{ type := "import",
       source := ((getFieldNode n "source").getD emptyJsNode).sval,
       specifiers := (getFieldList n "specifiers").map specName,
       line := n.nline,
       isExternal := !(startsWithDot ((getFieldNode n "source").getD emptyJsNode).sval) }]
   else []) ++
  (match (getFieldList n "arguments").head? with
   | some a =>
     if n.ntype = "CallExpression" ∧
        ((getFieldNode n "callee").getD emptyJsNode).sname = "require" ∧
        a.ntype = "StringLiteral" then
       [{ type := "require", source := a.sval, specifiers := [],
          line := n.nline, isExternal := !(startsWithDot a.sval) }]
     else []
   | none => []) ++
  (if n.ntype = "ImportExpression" then
    [{ type := "dynamic",
       source := if ((getFieldNode n "source").getD emptyJsNode).sval ≠ ""
                 then ((getFieldNode n "source").getD emptyJsNode).sval
                 else "<dynamic>",
       specifiers := [], line := n.nline, isExternal := true }]
   else [])

/-! The visitor of `extractDependencies`: pushes, then every child. -/
mutual
def depsN : JsNode → List DependencyInfo
  | .mk t o sn sv l c a fs => depPushes (.mk t o sn sv l c a fs) ++ depsF fs
def depsF : JsFields → List DependencyInfo
  | .nil => []
  | .cons _ vs rest => depsL vs ++ depsF rest
def depsL : JsList → List DependencyInfo
  | .nil => []
  | .cons h t => depsN h ++ depsL t
end

/-- `extractDependencies` from `src/analysis/ast-parser.ts`. -/
def extractDependencies (ast : JsNode) : List DependencyInfo := depsN ast

/-- The shape returned by `simplifyAST` (positions kept as the model's
line/column pair). -/
structure SimpleAST where
  type : String
  name : String
  line : Nat
  col : Nat
deriving DecidableEq, Repr

/-- `simplifyAST`: `node.name || node.id?.name` plus positions. -/
def simplifyAST (n : JsNode) : SimpleAST :=
  { type := n.ntype,
    name := if n.sname ≠ "" then n.sname
            else ((getFieldNode n "id").map (·.sname)).getD "",
    line := n.nline, col := n.ncol }

/-- The record `parseFile` resolves to. -/
structure ParseResult where
  ast : Option SimpleAST
  functions : List FunctionInfo
  dependencies : List DependencyInfo
  metrics : CodeMetrics
deriving DecidableEq, Repr

/-- `parseTypeScript`: on parser success, the full analysis; on
failure, rethrow with the `TypeScript parsing failed` prefix. -/
def parseTypeScript (env : JsEnv) (content : String) (isTSX : Bool) :
    Except String ParseResult :=
  match env.parseTS content isTSX with
  | .ok ast =>
    .ok { ast := some (simplifyAST ast),
          functions := extractFunctions ast,
          dependencies := extractDependencies ast,
          metrics := calculateMetrics env content (extractFunctions ast) }
  | .error e => .error ("TypeScript parsing failed: " ++ e)

/-- `parseJavaScript`: the Babel-side twin of `parseTypeScript`. -/
def parseJavaScript (env : JsEnv) (content : String) (isJSX : Bool) :
    Except String ParseResult :=
  match env.parseJS content isJSX with
  | .ok ast =>
    .ok { ast := some (simplifyAST ast),
          functions := extractFunctions ast,
          dependencies := extractDependencies ast,
          metrics := calculateMetrics env content (extractFunctions ast) }
  | .error e => .error ("JavaScript parsing failed: " ++ e)

/-- `parseFile`: dispatch on the detected language; the `catch` around
the `switch` turns every thrown error into the degraded basic result,
so the function is total — it never propagates an error. -/
def parseFile (env : JsEnv) (content filename : String) : ParseResult :=
  if detectLanguage filename = "typescript" ∨ detectLanguage filename = "tsx" then
    match parseTypeScript env content (detectLanguage filename == "tsx") with
    | .ok r => r
    | .error _ =>
      { ast := none, functions := [], dependencies := [],
        metrics := getBasicMetrics content }
  else if detectLanguage filename = "javascript" ∨ detectLanguage filename = "jsx" then
    match parseJavaScript env content (detectLanguage filename == "jsx") with
    | .ok r => r
    | .error _ =>
      { ast := none, functions := [], dependencies := [],
        metrics := getBasicMetrics content }
  else
    { ast := none, functions := [], dependencies := [],
      metrics := getBasicMetrics content }

/-- Whether an attempt failed (the thrown-error constructor). -/
def exceptFailed {α : Type} : Except String α → Bool
  | .error _ => true
  | .ok _ => false

/-- The hypothesis of claim C3: the text fails to parse for the
detected language, or the language family is unsupported. -/
def parseFails (env : JsEnv) (content filename : String) : Bool :=
  if detectLanguage filename = "typescript" ∨ detectLanguage filename = "tsx" then
    exceptFailed (parseTypeScript env content (detectLanguage filename == "tsx"))
  else if detectLanguage filename = "javascript" ∨ detectLanguage filename = "jsx" then
    exceptFailed (parseJavaScript env content (detectLanguage filename == "jsx"))
  else true

/-- Claim C3.  `parseFile` is total (the model returns a plain
`ParseResult`, as the source `catch` converts every thrown error into
the degraded result), and whenever the parse attempt fails or the
language family is unsupported it returns no functions, no
dependencies, and basic metrics whose complexity-derived numbers are
all zero with `linesOfCode` the non-blank line count. -/
theorem parseFile_degrades (env : JsEnv) (content filename : String)
    (h : parseFails env content filename = true) :
    (parseFile env content filename).ast = none ∧
    (parseFile env content filename).functions = [] ∧
    (parseFile env content filename).dependencies = [] ∧
    (parseFile env content filename).metrics.complexity = 0 ∧
    (parseFile env content filename).metrics.maintainabilityIndex = 0 ∧
    (parseFile env content filename).metrics.commentRatio = 0 ∧
    (parseFile env content filename).metrics.functionCount = 0 ∧
    (parseFile env content filename).metrics.classCount = 0 ∧
    (parseFile env content filename).metrics.linesOfCode =
      ((splitOnChar '\n' content.data).filter fun l => !(jsTrim l).isEmpty).length := by
  have key : parseFile env content filename =
      { ast := none, functions := [], dependencies := [],
        metrics := getBasicMetrics content } := by
    unfold parseFile
    unfold parseFails at h
    split_ifs at h ⊢ with h1 h2
    · cases hp : parseTypeScript env content (detectLanguage filename == "tsx") with
      | ok r => rw [hp] at h; simp [exceptFailed] at h
      | error e => rfl
    · cases hp : parseJavaScript env content (detectLanguage filename == "jsx") with
      | ok r => rw [hp] at h; simp [exceptFailed] at h
      | error e => rfl
    · rfl
  rw [key]
  exact ⟨rfl, rfl, rfl, rfl, rfl, rfl, rfl, rfl, rfl⟩

/-- A concrete environment whose parsers always throw. -/
def demoEnv : JsEnv :=
  { parseTS := fun _ _ => .error "boom",
    parseJS := fun _ _ => .error "boom",
    log := fun _ => 0 }

/-- Claim C3 — witness: a TypeScript filename with a parser that
throws; the result has empty lists, zeroed derived metrics, and 2
non-blank lines of 3. -/
theorem parseFile_degrades_witness :
    parseFails demoEnv "x\n\n y" "a.ts" = true ∧
    ((parseFile demoEnv "x\n\n y" "a.ts").ast = none ∧
     (parseFile demoEnv "x\n\n y" "a.ts").functions = [] ∧
     (parseFile demoEnv "x\n\n y" "a.ts").dependencies = [] ∧
     (parseFile demoEnv "x\n\n y" "a.ts").metrics.complexity = 0 ∧
     (parseFile demoEnv "x\n\n y" "a.ts").metrics.maintainabilityIndex = 0 ∧
     (parseFile demoEnv "x\n\n y" "a.ts").metrics.commentRatio = 0 ∧
     (parseFile demoEnv "x\n\n y" "a.ts").metrics.functionCount = 0 ∧
     (parseFile demoEnv "x\n\n y" "a.ts").metrics.classCount = 0 ∧
     (parseFile demoEnv "x\n\n y" "a.ts").metrics.linesOfCode =
       ((splitOnChar '\n' "x\n\n y".data).filter fun l => !(jsTrim l).isEmpty).length) ∧
    ((splitOnChar '\n' "x\n\n y".data).filter fun l => !(jsTrim l).isEmpty).length = 2 :=
  ⟨by decide, parseFile_degrades demoEnv "x\n\n y" "a.ts" (by decide), by decide⟩

end ReleaseHelper
